import Mathlib

/-!
Verification development for the cJSON-Tools JSON transformation engine.

The development embeds the engine's data model and operations shallowly:

* `Json` is the tagged value tree of spec section 3 (numbers carry the
  integer/real discriminant and their textual form, which the engine
  preserves across transformations).
* The individual operations (`remove_nulls`, `remove_empty_strings`,
  `replace_keys`, `replace_values`, `flatten_json`, `get_paths_types`,
  `schemaOf`/`mergeS`) are implemented by the C extension `_cjson_tools`,
  whose sources are not part of the Python package tree; they are modelled
  from the specification (sections 4.2 to 4.6) and marked as such.
* The Python-level builder (`cjson_tools/builder.py`) is embedded directly
  from its source: `Builder`, `Builder.addJson`, `Builder.build`,
  `multiPassRef` (the multi-pass fallback under the section 4.7 ordering
  contract) live below.
* Regex patterns are abstracted as a compiled `Pattern`: a test predicate
  plus a substitution function that leaves non-matching strings unchanged,
  mirroring the regex engine adapter of spec section 2.
-/

/-- JSON value tree (spec section 3): tagged variants with the number kind
discriminant (`isInt = true` for integer-kind) and the textual spelling of
the number, which the engine never rewrites. Objects are ordered member
lists as in cJSON's linked child list. -/
inductive Json where
  | null
  | bool (b : Bool)
  | num (isInt : Bool) (lit : String)
  | str (s : String)
  | arr (xs : List Json)
  | obj (ms : List (String × Json))

namespace Json

mutual
/-- Structural equality decision for `Json` values. -/
def decEq : (a b : Json) → Decidable (a = b)
  | .null, .null => .isTrue rfl
  | .bool a, .bool b =>
      if h : a = b then .isTrue (by rw [h]) else .isFalse (by intro hh; injection hh; contradiction)
  | .num i1 l1, .num i2 l2 =>
      if h1 : i1 = i2 then
        if h2 : l1 = l2 then .isTrue (by rw [h1, h2])
        else .isFalse (by intro hh; injection hh; contradiction)
      else .isFalse (by intro hh; injection hh; contradiction)
  | .str a, .str b =>
      if h : a = b then .isTrue (by rw [h]) else .isFalse (by intro hh; injection hh; contradiction)
  | .arr xs, .arr ys =>
      match decEqList xs ys with
      | .isTrue h => .isTrue (by rw [h])
      | .isFalse h => .isFalse (by intro hh; injection hh; contradiction)
  | .obj ms, .obj ns =>
      match decEqMems ms ns with
      | .isTrue h => .isTrue (by rw [h])
      | .isFalse h => .isFalse (by intro hh; injection hh; contradiction)
  | .null, .bool _ => .isFalse (by intro h; exact Json.noConfusion h)
  | .null, .num _ _ => .isFalse (by intro h; exact Json.noConfusion h)
  | .null, .str _ => .isFalse (by intro h; exact Json.noConfusion h)
  | .null, .arr _ => .isFalse (by intro h; exact Json.noConfusion h)
  | .null, .obj _ => .isFalse (by intro h; exact Json.noConfusion h)
  | .bool _, .null => .isFalse (by intro h; exact Json.noConfusion h)
  | .bool _, .num _ _ => .isFalse (by intro h; exact Json.noConfusion h)
  | .bool _, .str _ => .isFalse (by intro h; exact Json.noConfusion h)
  | .bool _, .arr _ => .isFalse (by intro h; exact Json.noConfusion h)
  | .bool _, .obj _ => .isFalse (by intro h; exact Json.noConfusion h)
  | .num _ _, .null => .isFalse (by intro h; exact Json.noConfusion h)
  | .num _ _, .bool _ => .isFalse (by intro h; exact Json.noConfusion h)
  | .num _ _, .str _ => .isFalse (by intro h; exact Json.noConfusion h)
  | .num _ _, .arr _ => .isFalse (by intro h; exact Json.noConfusion h)
  | .num _ _, .obj _ => .isFalse (by intro h; exact Json.noConfusion h)
  | .str _, .null => .isFalse (by intro h; exact Json.noConfusion h)
  | .str _, .bool _ => .isFalse (by intro h; exact Json.noConfusion h)
  | .str _, .num _ _ => .isFalse (by intro h; exact Json.noConfusion h)
  | .str _, .arr _ => .isFalse (by intro h; exact Json.noConfusion h)
  | .str _, .obj _ => .isFalse (by intro h; exact Json.noConfusion h)
  | .arr _, .null => .isFalse (by intro h; exact Json.noConfusion h)
  | .arr _, .bool _ => .isFalse (by intro h; exact Json.noConfusion h)
  | .arr _, .num _ _ => .isFalse (by intro h; exact Json.noConfusion h)
  | .arr _, .str _ => .isFalse (by intro h; exact Json.noConfusion h)
  | .arr _, .obj _ => .isFalse (by intro h; exact Json.noConfusion h)
  | .obj _, .null => .isFalse (by intro h; exact Json.noConfusion h)
  | .obj _, .bool _ => .isFalse (by intro h; exact Json.noConfusion h)
  | .obj _, .num _ _ => .isFalse (by intro h; exact Json.noConfusion h)
  | .obj _, .str _ => .isFalse (by intro h; exact Json.noConfusion h)
  | .obj _, .arr _ => .isFalse (by intro h; exact Json.noConfusion h)

/-- Equality decision for lists of `Json` values. -/
def decEqList : (xs ys : List Json) → Decidable (xs = ys)
  | [], [] => .isTrue rfl
  | [], _ :: _ => .isFalse (by intro h; exact List.noConfusion h)
  | _ :: _, [] => .isFalse (by intro h; exact List.noConfusion h)
  | x :: xs, y :: ys =>
      match decEq x y with
      | .isTrue h1 =>
          match decEqList xs ys with
          | .isTrue h2 => .isTrue (by rw [h1, h2])
          | .isFalse h2 => .isFalse (by intro hh; injection hh; contradiction)
      | .isFalse h1 => .isFalse (by intro hh; injection hh; contradiction)

/-- Equality decision for object member lists. -/
def decEqMems : (ms ns : List (String × Json)) → Decidable (ms = ns)
  | [], [] => .isTrue rfl
  | [], _ :: _ => .isFalse (by intro h; exact List.noConfusion h)
  | _ :: _, [] => .isFalse (by intro h; exact List.noConfusion h)
  | (k1, v1) :: ms, (k2, v2) :: ns =>
      if hk : k1 = k2 then
        match decEq v1 v2 with
        | .isTrue h1 =>
            match decEqMems ms ns with
            | .isTrue h2 => .isTrue (by rw [hk, h1, h2])
            | .isFalse h2 => .isFalse (by
                intro hh; injection hh with hh1 hh2; exact h2 hh2)
        | .isFalse h1 => .isFalse (by
            intro hh; injection hh with hh1 hh2
            exact h1 (congrArg Prod.snd hh1))
      else .isFalse (by
        intro hh; injection hh with hh1 hh2
        exact hk (congrArg Prod.fst hh1))
end

instance : DecidableEq Json := Json.decEq

end Json

/-- Modelled from the spec: the regex engine adapter of section 2 ("compile a
pattern once; test-match and substitute against a byte slice"), whose C
implementation is not in the Python package tree. A compiled pattern carries
its match test, its substitution function (taking the replacement string and
the subject), and the adapter's guarantee that substitution leaves a
non-matching subject unchanged. -/
structure Pattern where
  test : String → Bool
  subst : String → String → String
  subst_id : ∀ r s, test s = false → subst r s = s

mutual
/-- Modelled from the spec: `remove_nulls` (section 4.5), implemented in the
missing C core. A purely structural filter on object members only: object
members whose value is `null` are dropped, array elements are preserved. -/
def remove_nulls : Json → Json
  | .obj ms => .obj (removeNullsMems ms)
  | .arr xs => .arr (removeNullsList xs)
  | v => v

/-- Array elements of `remove_nulls`: recursed into, never dropped. -/
def removeNullsList : List Json → List Json
  | [] => []
  | x :: xs => remove_nulls x :: removeNullsList xs

/-- Object members of `remove_nulls`: null-valued members dropped, others kept. -/
def removeNullsMems : List (String × Json) → List (String × Json)
  | [] => []
  | (k, v) :: ms =>
      if v = .null then removeNullsMems ms
      else (k, remove_nulls v) :: removeNullsMems ms
end

mutual
/-- Modelled from the spec: `remove_empty_strings` (section 4.5), implemented
in the missing C core; symmetric to `remove_nulls` for empty-string members. -/
def remove_empty_strings : Json → Json
  | .obj ms => .obj (removeEmptyMems ms)
  | .arr xs => .arr (removeEmptyList xs)
  | v => v

/-- Array elements of `remove_empty_strings`: recursed into, never dropped. -/
def removeEmptyList : List Json → List Json
  | [] => []
  | x :: xs => remove_empty_strings x :: removeEmptyList xs

/-- Object members of `remove_empty_strings`. -/
def removeEmptyMems : List (String × Json) → List (String × Json)
  | [] => []
  | (k, v) :: ms =>
      if v = .str "" then removeEmptyMems ms
      else (k, remove_empty_strings v) :: removeEmptyMems ms
end

mutual
/-- Modelled from the spec: `replace_keys` (section 4.6), implemented in the
missing C core. Every object member key is run through the compiled
pattern's substitution; values are recursed into, keys of nested objects
included. -/
def replace_keys (pat : Pattern) (r : String) : Json → Json
  | .obj ms => .obj (replaceKeysMems pat r ms)
  | .arr xs => .arr (replaceKeysList pat r xs)
  | v => v

/-- Array elements of `replace_keys`. -/
def replaceKeysList (pat : Pattern) (r : String) : List Json → List Json
  | [] => []
  | x :: xs => replace_keys pat r x :: replaceKeysList pat r xs

/-- Object members of `replace_keys`: the key is substituted, the value recursed. -/
def replaceKeysMems (pat : Pattern) (r : String) : List (String × Json) → List (String × Json)
  | [] => []
  | (k, v) :: ms => (pat.subst r k, replace_keys pat r v) :: replaceKeysMems pat r ms
end

mutual
/-- Modelled from the spec: `replace_values` (section 4.6), implemented in
the missing C core. Every string leaf (in objects or arrays) is run through
the substitution; non-string values are untouched. -/
def replace_values (pat : Pattern) (r : String) : Json → Json
  | .obj ms => .obj (replaceValuesMems pat r ms)
  | .arr xs => .arr (replaceValuesList pat r xs)
  | .str s => .str (pat.subst r s)
  | v => v

/-- Array elements of `replace_values`. -/
def replaceValuesList (pat : Pattern) (r : String) : List Json → List Json
  | [] => []
  | x :: xs => replace_values pat r x :: replaceValuesList pat r xs

/-- Object members of `replace_values`: keys untouched, values recursed. -/
def replaceValuesMems (pat : Pattern) (r : String) : List (String × Json) → List (String × Json)
  | [] => []
  | (k, v) :: ms => (k, replace_values pat r v) :: replaceValuesMems pat r ms
end

/-- Path-step construction (spec section 3): the first step elides the dot,
a later object step appends `.key`. -/
def joinKey (pfx k : String) : String :=
  if pfx = "" then k else pfx ++ "." ++ k

/-- Array-index path segment `[i]` (spec section 3). -/
def idxSeg (pfx : String) (i : Nat) : String :=
  pfx ++ "[" ++ toString i ++ "]"

mutual
/-- Modelled from the spec: the flattener (section 4.2), implemented in the
missing C core. `flattenEntry path v` lists the flattened members a value
contributes under a running path: scalars and empty containers are leaves,
nested objects use dotted steps, arrays use `[i]` segments. -/
def flattenEntry (path : String) : Json → List (String × Json)
  | .obj [] => [(path, .obj [])]
  | .arr [] => [(path, .arr [])]
  | .obj ms => flattenMems path ms
  | .arr xs => flattenArr path 0 xs
  | v => [(path, v)]

/-- Flattened members contributed by an object's member list. -/
def flattenMems (pfx : String) : List (String × Json) → List (String × Json)
  | [] => []
  | (k, v) :: ms => flattenEntry (joinKey pfx k) v ++ flattenMems pfx ms

/-- Flattened members contributed by an array's elements, indexed from `i`. -/
def flattenArr (pfx : String) (i : Nat) : List Json → List (String × Json)
  | [] => []
  | x :: xs => flattenEntry (idxSeg pfx i) x ++ flattenArr pfx (i + 1) xs
end

/-- Modelled from the spec: `flatten` (section 4.2 with the section 9 note):
a top-level object is reshaped into the single object of dotted-path
members; top-level arrays (and scalars) are returned as-is, the documented
legacy behavior. -/
def flatten_json : Json → Json
  | .obj ms => .obj (flattenMems "" ms)
  | v => v

/-- Scalar type names of spec section 4.3: integer-kind numbers map to
"integer", real-kind to "number". -/
def typeName : Json → String
  | .null => "null"
  | .bool _ => "boolean"
  | .num true _ => "integer"
  | .num false _ => "number"
  | .str _ => "string"
  | .arr _ => "array"
  | .obj _ => "object"

mutual
/-- Modelled from the spec: the path-type analyzer (section 4.4), implemented
in the missing C core. Each leaf path maps to its scalar type name; no entry
is emitted for non-leaf containers; arrays contribute `[i]` segments. -/
def pathTypesEntry (path : String) : Json → List (String × Json)
  | .obj ms => pathTypesMems path ms
  | .arr xs => pathTypesArr path 0 xs
  | v => [(path, .str (typeName v))]

/-- Path-type entries contributed by an object's member list. -/
def pathTypesMems (pfx : String) : List (String × Json) → List (String × Json)
  | [] => []
  | (k, v) :: ms => pathTypesEntry (joinKey pfx k) v ++ pathTypesMems pfx ms

/-- Path-type entries contributed by an array's elements, indexed from `i`. -/
def pathTypesArr (pfx : String) (i : Nat) : List Json → List (String × Json)
  | [] => []
  | x :: xs => pathTypesEntry (idxSeg pfx i) x ++ pathTypesArr pfx (i + 1) xs
end

/-- Modelled from the spec: `get_flattened_paths_with_types` (section 4.4):
the object mapping every fully qualified leaf path to its type name. -/
def get_paths_types (d : Json) : Json :=
  .obj (pathTypesEntry "" d)

/-- JSON string escaping for the serializer (spec section 4.1). -/
def escapeChar (c : Char) : String :=
  if c = '"' then "\\\""
  else if c = '\\' then "\\\\"
  else if c = '\n' then "\\n"
  else if c = '\t' then "\\t"
  else if c = '\r' then "\\r"
  else String.singleton c

/-- Quote and escape a JSON string literal. -/
def quoteStr (s : String) : String :=
  "\"" ++ String.join (s.data.map escapeChar) ++ "\""

mutual
/-- Modelled from the spec: the compact serializer (section 4.1): no
whitespace between tokens, number spelling taken from the stored literal. -/
def serialize : Json → String
  | .null => "null"
  | .bool true => "true"
  | .bool false => "false"
  | .num _ lit => lit
  | .str s => quoteStr s
  | .arr xs => "[" ++ serializeList xs ++ "]"
  | .obj ms => "\x7b" ++ serializeMems ms ++ "\x7d"

/-- Comma-joined compact serialization of array elements. -/
def serializeList : List Json → String
  | [] => ""
  | [x] => serialize x
  | x :: xs => serialize x ++ "," ++ serializeList xs

/-- Comma-joined compact serialization of object members. -/
def serializeMems : List (String × Json) → String
  | [] => ""
  | [(k, v)] => quoteStr k ++ ":" ++ serialize v
  | (k, v) :: ms => quoteStr k ++ ":" ++ serialize v ++ "," ++ serializeMems ms
end

/-- Whitespace characters recognized by the parser (RFC 8259). -/
def isWs (c : Char) : Bool :=
  c = ' ' || c = '\n' || c = '\t' || c = '\r'

/-- Skip leading whitespace. -/
def skipWs : List Char → List Char
  | [] => []
  | c :: cs => if isWs c then skipWs cs else c :: cs

/-- Digit test for number lexing. -/
def isDigitCh (c : Char) : Bool :=
  '0' ≤ c && c ≤ '9'

/-- Characters that may occur in a JSON number after the leading sign. -/
def isNumCh (c : Char) : Bool :=
  isDigitCh c || c = '.' || c = 'e' || c = 'E' || c = '+' || c = '-'

/-- Lex the body of a number: the consumed characters and the rest. -/
def lexNum : List Char → List Char × List Char
  | [] => ([], [])
  | c :: cs =>
      if isNumCh c then
        let (tk, rest) := lexNum cs
        (c :: tk, rest)
      else ([], c :: cs)

/-- Number kind discriminant of spec section 3: any textual presence of
a dot or an exponent marker makes the number real-kind. -/
def litIsInt (tk : List Char) : Bool :=
  !(tk.any fun c => c = '.' || c = 'e' || c = 'E')

/-- Lex a string literal body after the opening quote; decodes the simple
escapes, returns the content and the rest after the closing quote. -/
def lexStr : List Char → Option (List Char × List Char)
  | [] => none
  | '"' :: cs => some ([], cs)
  | '\\' :: c :: cs =>
      let dec : Char :=
        if c = 'n' then '\n'
        else if c = 't' then '\t'
        else if c = 'r' then '\r'
        else c
      (lexStr cs).map fun (tk, rest) => (dec :: tk, rest)
  | c :: cs => (lexStr cs).map fun (tk, rest) => (c :: tk, rest)

mutual
/-- Modelled from the spec: the recursive-descent parser of section 4.1
(the C core's parser is not in the Python package tree; the Python builder
validates input with an equivalent external parse). Fuel-indexed so that the
recursion is structural; `jsonParse` supplies sufficient fuel. -/
def parseVal : Nat → List Char → Option (Json × List Char)
  | 0, _ => none
  | fuel + 1, cs =>
      match skipWs cs with
      | 'n' :: 'u' :: 'l' :: 'l' :: rest => some (.null, rest)
      | 't' :: 'r' :: 'u' :: 'e' :: rest => some (.bool true, rest)
      | 'f' :: 'a' :: 'l' :: 's' :: 'e' :: rest => some (.bool false, rest)
      | '"' :: rest =>
          (lexStr rest).map fun (tk, rest2) => (.str (String.mk tk), rest2)
      | '[' :: rest => parseArrElems fuel true rest
      | '\x7b' :: rest => parseObjMems fuel true rest
      | '-' :: c :: rest =>
          if isDigitCh c then
            let (tk, rest2) := lexNum (c :: rest)
            some (.num (litIsInt tk) (String.mk ('-' :: tk)), rest2)
          else none
      | c :: rest =>
          if isDigitCh c then
            let (tk, rest2) := lexNum (c :: rest)
            some (.num (litIsInt tk) (String.mk tk), rest2)
          else none
      | [] => none

def parseArrElems : Nat → Bool → List Char → Option (Json × List Char)
  | 0, _, _ => none
  | fuel + 1, first, cs =>
      match skipWs cs with
      | ']' :: rest => if first then some (.arr [], rest) else none
      | cs2 =>
          (parseVal fuel cs2).bind fun (v, rest) =>
            match skipWs rest with
            | ']' :: rest2 => some (.arr [v], rest2)
            | ',' :: rest2 =>
                (parseArrElems fuel false rest2).bind fun (tl, rest3) =>
                  match tl with
                  | .arr vs => some (.arr (v :: vs), rest3)
                  | _ => none
            | _ => none

def parseObjMems : Nat → Bool → List Char → Option (Json × List Char)
  | 0, _, _ => none
  | fuel + 1, first, cs =>
      match skipWs cs with
      | '\x7d' :: rest => if first then some (.obj [], rest) else none
      | '"' :: rest =>
          (lexStr rest).bind fun (ktk, rest2) =>
            match skipWs rest2 with
            | ':' :: rest3 =>
                (parseVal fuel rest3).bind fun (v, rest4) =>
                  match skipWs rest4 with
                  | '\x7d' :: rest5 => some (.obj [(String.mk ktk, v)], rest5)
                  | ',' :: rest5 =>
                      (parseObjMems fuel false rest5).bind fun (tl, rest6) =>
                        match tl with
                        | .obj mems => some (.obj ((String.mk ktk, v) :: mems), rest6)
                        | _ => none
                  | _ => none
            | _ => none
      | _ => none
end

/-- Modelled from the spec: whole-input parse (section 4.1); fails on
malformed input or trailing non-whitespace. -/
def jsonParse (s : String) : Option Json :=
  match parseVal (2 * s.length + 2) s.data with
  | some (v, rest) => if skipWs rest = [] then some v else none
  | none => none

/-- Two-space indentation prefix for the pretty serializer. -/
def indentStr : Nat → String
  | 0 => ""
  | n + 1 => indentStr n ++ "  "

mutual
/-- Modelled from the spec: the pretty serializer of section 4.1 (two-space
indent, newline between members, space after the colon); stands in for the
indent-2 re-serialization the Python builder performs for pretty output. -/
def serializeP (ind : Nat) : Json → String
  | .arr [] => "[]"
  | .obj [] => "\x7b\x7d"
  | .arr xs => "[\n" ++ serializePList (ind + 1) xs ++ "\n" ++ indentStr ind ++ "]"
  | .obj ms => "\x7b\n" ++ serializePMems (ind + 1) ms ++ "\n" ++ indentStr ind ++ "\x7d"
  | v => serialize v

def serializePList (ind : Nat) : List Json → String
  | [] => ""
  | [x] => indentStr ind ++ serializeP ind x
  | x :: xs => indentStr ind ++ serializeP ind x ++ ",\n" ++ serializePList ind xs

def serializePMems (ind : Nat) : List (String × Json) → String
  | [] => ""
  | [(k, v)] => indentStr ind ++ quoteStr k ++ ": " ++ serializeP ind v
  | (k, v) :: ms =>
      indentStr ind ++ quoteStr k ++ ": " ++ serializeP ind v ++ ",\n" ++ serializePMems ind ms
end

/-- Pretty-print entry: top-level with no indentation. -/
def serializePretty (d : Json) : String :=
  serializeP 0 d

/-- Operation descriptors of the builder (spec section 3, "Operation
descriptor"): the queued operation tag plus the compiled pattern and
replacement for the regex operations. -/
inductive Op where
  | removeEmptyStrings
  | removeNulls
  | replaceKeys (pat : Pattern) (repl : String)
  | replaceValues (pat : Pattern) (repl : String)
  | flattenOp

/-- Tag test used by the ordering contract: is this the flatten operation? -/
def Op.isFlattenOp : Op → Bool
  | .flattenOp => true
  | _ => false

/-- The one-at-a-time meaning of a queued operation, as dispatched by
`JsonToolsBuilder._execute_operations_fallback` in `builder.py`. -/
def applyOp : Op → Json → Json
  | .removeEmptyStrings, d => remove_empty_strings d
  | .removeNulls, d => remove_nulls d
  | .replaceKeys pat r, d => replace_keys pat r d
  | .replaceValues pat r, d => replace_values pat r d
  | .flattenOp, d => flatten_json d

/-- The queued operations without the flatten descriptor. -/
def nonFlatten (S : List Op) : List Op :=
  S.filter fun op => !op.isFlattenOp

/-- Whether flatten was queued at all. -/
def hasFlattenOp (S : List Op) : Bool :=
  S.any Op.isFlattenOp

/-- Multi-pass reference execution: the fallback of
`JsonToolsBuilder._execute_operations_fallback` under the ordering contract
of spec section 4.7 (non-flatten operations one at a time in queue order,
flatten as the final step). -/
def multiPassRef (S : List Op) (d : Json) : Json :=
  let base := (nonFlatten S).foldl (fun a op => applyOp op a) d
  if hasFlattenOp S then flatten_json base else base

/-- Modelled from the spec: the action of one queued operation on one object
member during the fused traversal (section 4.7): a key rewrite substitutes
the key, a removal filter drops the member when its current value is the
filtered scalar, a value rewrite substitutes a string value; flatten has no
per-member action. -/
def memberStep : Op → String × Json → Option (String × Json)
  | .replaceKeys pat r, (k, v) => some (pat.subst r k, v)
  | .removeNulls, (k, v) => if v = .null then none else some (k, v)
  | .removeEmptyStrings, (k, v) => if v = .str "" then none else some (k, v)
  | .replaceValues pat r, (k, .str s) => some (k, .str (pat.subst r s))
  | .replaceValues _ _, kv => some kv
  | .flattenOp, kv => some kv

/-- Run the whole queue over one member, in queue order. -/
def memberFold (S : List Op) (kv : String × Json) : Option (String × Json) :=
  S.foldl (fun st op => st.bind (memberStep op)) (some kv)

/-- Value rewrites a bare string leaf receives, in queue order. -/
def valueSteps (S : List Op) (s : String) : String :=
  S.foldl (fun a op =>
    match op with
    | .replaceValues pat r => pat.subst r a
    | _ => a) s

mutual
/-- Modelled from the spec: the fused single-pass traversal of the builder
(section 4.7). Each node is visited exactly once; at an object, every member
is run through the whole queue in queue order (`memberFold`) and the
surviving member's container value is recursed into; bare string leaves in
arrays receive the value rewrites. -/
def fusedVisit (S : List Op) : Json → Json
  | .obj ms => .obj (fusedMems S ms)
  | .arr xs => .arr (fusedList S xs)
  | .str s => .str (valueSteps S s)
  | v => v

def fusedList (S : List Op) : List Json → List Json
  | [] => []
  | x :: xs => fusedVisit S x :: fusedList S xs

def fusedMems (S : List Op) : List (String × Json) → List (String × Json)
  | [] => []
  | (k, v) :: ms =>
      match memberFold S (k, v) with
      | none => fusedMems S ms
      | some (k2, v2) =>
          (k2, match v with
               | .obj _ => fusedVisit S v
               | .arr _ => fusedVisit S v
               | _ => v2) :: fusedMems S ms
end

/-- Modelled from the spec: `_builder_execute` of the C extension
(section 4.7): one fused traversal applying the queued operations, then
flatten as the final step when queued. -/
def builderExecute (S : List Op) (d : Json) : Json :=
  let t := fusedVisit S d
  if hasFlattenOp S then flatten_json t else t

/-- Builder state, from `JsonToolsBuilder.__init__` in `builder.py`:
the raw input string, the queued operations, and the pretty flag. -/
structure Builder where
  jsonData : Option String
  operations : List Op
  prettyFlag : Bool

/-- Fresh builder, from `JsonToolsBuilder.__init__`. -/
def Builder.init : Builder :=
  { jsonData := none, operations := [], prettyFlag := false }

/-- From `JsonToolsBuilder.add_json` (string branch): the argument is
validated by a parse and then stored verbatim; invalid JSON raises. -/
def Builder.addJson (b : Builder) (s : String) : Except String Builder :=
  match jsonParse s with
  | some _ => .ok { b with jsonData := some s }
  | none => .error "Invalid JSON"

/-- From the queueing methods of `JsonToolsBuilder`: descriptors append. -/
def Builder.queue (b : Builder) (op : Op) : Builder :=
  { b with operations := b.operations ++ [op] }

/-- From `JsonToolsBuilder.pretty_print`. -/
def Builder.setPretty (b : Builder) (e : Bool) : Builder :=
  { b with prettyFlag := e }

/-- From `JsonToolsBuilder.build`: no data is an error; with no queued
operations the stored string is returned as-is (re-serialized with indent 2
only when pretty printing was enabled); otherwise the C single-pass
execution runs on the stored string. -/
def Builder.build (b : Builder) : Except String String :=
  match b.jsonData with
  | none => .error "No JSON data provided. Call add_json() first."
  | some s =>
      if b.operations.isEmpty then
        if b.prettyFlag then
          match jsonParse s with
          | some v => .ok (serializePretty v)
          | none => .error "Invalid JSON"
        else .ok s
      else
        match jsonParse s with
        | some v =>
            .ok (if b.prettyFlag then serializePretty (builderExecute b.operations v)
                 else serialize (builderExecute b.operations v))
        | none => .error "Failed to parse JSON"

/-- Modelled from the spec: the serial batch path of section 4.8
(`use_threads=false`): each document is processed in input order. -/
def serialBatch (f : Json → Json) (ds : List Json) : List Json :=
  ds.map f

/-- One completed worker task of the threaded batch path (section 4.8): the
result for slot `i` is written into the output vector at index `i`. -/
def batchStep (f : Json → Json) (ds : List Json) (out : List (Option Json)) (i : Nat) :
    List (Option Json) :=
  match ds[i]? with
  | some d => out.set i (some (f d))
  | none => out

/-- Modelled from the spec: the threaded batch path of section 4.8: workers
process documents in an arbitrary schedule order, each writing its result
into the pre-allocated output vector at the document's original index.
`order` is the sequence of slot indices in completion order. -/
def threadedBatch (f : Json → Json) (ds : List Json) (order : List Nat) : List (Option Json) :=
  order.foldl (batchStep f ds) (List.replicate ds.length none)

/-- Schema node (spec section 3): a JSON-Schema fragment with the emitted
vocabulary, holding the (deterministically sorted) set of type names, the
object properties, and the merged array item schema (`none` encodes the
empty `items` of an empty array). -/
inductive Schema where
  | node (types : List String) (props : List (String × Schema)) (items : Option Schema)

/-- The type-name set of a schema node. -/
def Schema.typesOf : Schema → List String
  | .node ts _ _ => ts

/-- The object properties of a schema node. -/
def Schema.propsOf : Schema → List (String × Schema)
  | .node _ ps _ => ps

/-- The array item schema of a schema node. -/
def Schema.itemsOf : Schema → Option Schema
  | .node _ _ its => its

/-- Modelled from the spec: union of the sorted type-name sets (section 4.3,
"`{"type":[T1,T2,…]}` (sorted deterministically)"). -/
def unionTypes : List String → List String → List String
  | [], ts => ts
  | t :: ts, [] => t :: ts
  | t :: ts, u :: us =>
      if t = u then t :: unionTypes ts us
      else if t < u then t :: unionTypes ts (u :: us)
      else u :: unionTypes (t :: ts) us
termination_by a b => a.length + b.length

mutual
/-- Modelled from the spec: schema merging (section 4.3): type sets unite,
objects merge by key-union with each shared property's schema merged
recursively, arrays merge their item subschemas. -/
def mergeS : Schema → Schema → Schema
  | .node t1 p1 i1, .node t2 p2 i2 =>
      .node (unionTypes t1 t2) (mergeProps p1 p2) (mergeItems i1 i2)
termination_by s t => sizeOf s + sizeOf t
decreasing_by all_goals (simp_wf; omega)

/-- Key-union merge of two key-sorted property lists. -/
def mergeProps : List (String × Schema) → List (String × Schema) → List (String × Schema)
  | [], qs => qs
  | p :: ps, [] => p :: ps
  | (k1, s1) :: ps, (k2, s2) :: qs =>
      if k1 = k2 then (k1, mergeS s1 s2) :: mergeProps ps qs
      else if k1 < k2 then (k1, s1) :: mergeProps ps ((k2, s2) :: qs)
      else (k2, s2) :: mergeProps ((k1, s1) :: ps) qs
termination_by ps qs => sizeOf ps + sizeOf qs
decreasing_by all_goals (first | (simp_wf; omega) | simp_wf)

/-- Merge of the optional array item schemas. -/
def mergeItems : Option Schema → Option Schema → Option Schema
  | none, i => i
  | some s, none => some s
  | some s, some t => some (mergeS s t)
termination_by i1 i2 => sizeOf i1 + sizeOf i2
decreasing_by all_goals (simp_wf; omega)
end

/-- Sorted insert of a property, overwriting an existing key
(last-write-wins, spec section 3). -/
def insertProp (k : String) (s : Schema) : List (String × Schema) → List (String × Schema)
  | [] => [(k, s)]
  | (k1, s1) :: ps =>
      if k = k1 then (k, s) :: ps
      else if k < k1 then (k, s) :: (k1, s1) :: ps
      else (k1, s1) :: insertProp k s ps

/-- Canonical (key-sorted, duplicate-free) property list built from the
members in document order, later duplicates overwriting earlier ones. -/
def canonProps (ms : List (String × Schema)) : List (String × Schema) :=
  ms.foldl (fun acc kv => insertProp kv.1 kv.2 acc) []

/-- Merged schema of a list of element schemas; `none` for an empty array. -/
def mergeList : List Schema → Option Schema
  | [] => none
  | s :: ss => some (ss.foldl mergeS s)

mutual
/-- Modelled from the spec: single-document schema inference (section 4.3):
objects emit type "object" with per-property schemas, arrays emit type
"array" with the merged element schema, scalars emit their type name with
integer-kind and real-kind numbers distinguished. -/
def schemaOf : Json → Schema
  | .null => .node ["null"] [] none
  | .bool _ => .node ["boolean"] [] none
  | .num true _ => .node ["integer"] [] none
  | .num false _ => .node ["number"] [] none
  | .str _ => .node ["string"] [] none
  | .obj ms => .node ["object"] (canonProps (schemaMems ms)) none
  | .arr xs => .node ["array"] [] (mergeList (schemaList xs))

/-- Per-member schemas of an object, in document order. -/
def schemaMems : List (String × Json) → List (String × Schema)
  | [] => []
  | (k, v) :: ms => (k, schemaOf v) :: schemaMems ms

/-- Per-element schemas of an array, in document order. -/
def schemaList : List Json → List Schema
  | [] => []
  | x :: xs => schemaOf x :: schemaList xs
end

/-- Neutral schema: the starting accumulator of a batch merge. -/
def emptySchema : Schema :=
  .node [] [] none

/-- Modelled from the spec: `generate_schema_batch` merging (sections 4.3 and
6): one schema accepting every document of the batch, the pairwise merge
folded over the batch in input order. -/
def batchSchema (ds : List Json) : Schema :=
  ds.foldl (fun acc d => mergeS acc (schemaOf d)) emptySchema

/-- Strictly sorted type-name list. -/
def TypesSorted (ts : List String) : Prop :=
  List.Pairwise (fun a b => a < b) ts

/-- Strictly key-sorted property list. -/
def PropsSorted (ps : List (String × Schema)) : Prop :=
  List.Pairwise (fun a b => a.1 < b.1) ps

/-- Canonical schema: sorted type names, key-sorted duplicate-free
properties, and canonical subschemas throughout. Every schema the engine
produces is canonical, which is what makes the merge commutative and
associative on the nose. -/
inductive Canon : Schema → Prop where
  | mk (ts : List String) (ps : List (String × Schema)) (its : Option Schema)
      (hts : TypesSorted ts)
      (hps : PropsSorted ps)
      (hsub : ∀ kv ∈ ps, Canon kv.2)
      (hit : ∀ s, its = some s → Canon s) :
      Canon (.node ts ps its)

mutual
/-- All object member keys occurring anywhere in a document. -/
def allKeys : Json → List String
  | .obj ms => allKeysMems ms
  | .arr xs => allKeysList xs
  | _ => []

/-- Keys of array elements. -/
def allKeysList : List Json → List String
  | [] => []
  | x :: xs => allKeys x ++ allKeysList xs

/-- Keys of an object: the member keys and the keys of member values. -/
def allKeysMems : List (String × Json) → List String
  | [] => []
  | (k, v) :: ms => k :: (allKeys v ++ allKeysMems ms)
end

mutual
/-- All string values occurring anywhere in a document (in objects or arrays). -/
def allStrs : Json → List String
  | .str s => [s]
  | .obj ms => allStrsMems ms
  | .arr xs => allStrsList xs
  | _ => []

/-- String values of array elements. -/
def allStrsList : List Json → List String
  | [] => []
  | x :: xs => allStrs x ++ allStrsList xs

/-- String values of an object's members. -/
def allStrsMems : List (String × Json) → List String
  | [] => []
  | (_, v) :: ms => allStrs v ++ allStrsMems ms
end

/-- Concrete compiled pattern matching exactly the literal `m` (the anchored
whole-string regex), substituting the whole subject. -/
def eqPat (m : String) : Pattern where
  test := fun s => s == m
  subst := fun r s => if s == m then r else s
  subst_id := fun r s h => by simp [h]

/-- Concrete compiled pattern matching subjects that start with `pre` (the
anchored `^pre` regex), substituting the matched leading portion. The test
and substitution work on the character lists so that they evaluate inside
the kernel. -/
def startPat (pre : String) : Pattern where
  test := fun s => pre.data.isPrefixOf s.data
  subst := fun r s =>
    if pre.data.isPrefixOf s.data then r ++ String.mk (s.data.drop pre.data.length) else s
  subst_id := fun r s h => by simp [h]

/-- Key rewrite a single queued operation performs on a member key. -/
def keyStep (op : Op) (k : String) : String :=
  match op with
  | .replaceKeys pat r => pat.subst r k
  | _ => k

/-- Key rewrites of the whole queue, in queue order. -/
def keyFold (S : List Op) (k : String) : String :=
  S.foldl (fun a op => keyStep op a) k

/-- Container test: arrays and objects. -/
def isContainer : Json → Bool
  | .arr _ => true
  | .obj _ => true
  | _ => false

/-! ## Helper lemmas about the removal filters -/

theorem removeNullsList_eq_map : ∀ xs : List Json, removeNullsList xs = xs.map remove_nulls
  | [] => rfl
  | x :: xs => by simp [removeNullsList, removeNullsList_eq_map xs]

theorem removeNullsMems_eq_filter :
    ∀ ms : List (String × Json),
      removeNullsMems ms
        = (ms.filter fun kv => decide (kv.2 ≠ Json.null)).map fun kv => (kv.1, remove_nulls kv.2)
  | [] => rfl
  | (k, v) :: ms => by
      by_cases h : v = Json.null
      · simp [removeNullsMems, h, removeNullsMems_eq_filter ms]
      · simp [removeNullsMems, h, removeNullsMems_eq_filter ms]

theorem removeEmptyList_eq_map : ∀ xs : List Json, removeEmptyList xs = xs.map remove_empty_strings
  | [] => rfl
  | x :: xs => by simp [removeEmptyList, removeEmptyList_eq_map xs]

theorem removeEmptyMems_eq_filter :
    ∀ ms : List (String × Json),
      removeEmptyMems ms
        = (ms.filter fun kv => decide (kv.2 ≠ Json.str "")).map
            fun kv => (kv.1, remove_empty_strings kv.2)
  | [] => rfl
  | (k, v) :: ms => by
      by_cases h : v = Json.str ""
      · simp [removeEmptyMems, h, removeEmptyMems_eq_filter ms]
      · simp [removeEmptyMems, h, removeEmptyMems_eq_filter ms]

theorem remove_nulls_ne_null : ∀ v : Json, v ≠ .null → remove_nulls v ≠ .null := by
  intro v h
  cases v <;> simp_all [remove_nulls]

theorem remove_empty_ne_emptystr : ∀ v : Json, v ≠ .str "" → remove_empty_strings v ≠ .str "" := by
  intro v h
  cases v <;> simp_all [remove_empty_strings]

mutual
theorem remove_nulls_idem : ∀ d : Json, remove_nulls (remove_nulls d) = remove_nulls d
  | .null => rfl
  | .bool _ => rfl
  | .num _ _ => rfl
  | .str _ => rfl
  | .arr xs => by simp only [remove_nulls]; rw [removeNullsList_idem xs]
  | .obj ms => by simp only [remove_nulls]; rw [removeNullsMems_idem ms]

theorem removeNullsList_idem : ∀ xs : List Json, removeNullsList (removeNullsList xs) = removeNullsList xs
  | [] => rfl
  | x :: xs => by
      simp only [removeNullsList]
      rw [remove_nulls_idem x, removeNullsList_idem xs]

theorem removeNullsMems_idem :
    ∀ ms : List (String × Json), removeNullsMems (removeNullsMems ms) = removeNullsMems ms
  | [] => rfl
  | (k, v) :: ms => by
      by_cases h : v = Json.null
      · simp only [removeNullsMems, if_pos h]
        exact removeNullsMems_idem ms
      · simp only [removeNullsMems, if_neg h, if_neg (remove_nulls_ne_null v h)]
        rw [remove_nulls_idem v, removeNullsMems_idem ms]
end

mutual
theorem remove_empty_idem :
    ∀ d : Json, remove_empty_strings (remove_empty_strings d) = remove_empty_strings d
  | .null => rfl
  | .bool _ => rfl
  | .num _ _ => rfl
  | .str _ => rfl
  | .arr xs => by simp only [remove_empty_strings]; rw [removeEmptyList_idem xs]
  | .obj ms => by simp only [remove_empty_strings]; rw [removeEmptyMems_idem ms]

theorem removeEmptyList_idem : ∀ xs : List Json, removeEmptyList (removeEmptyList xs) = removeEmptyList xs
  | [] => rfl
  | x :: xs => by
      simp only [removeEmptyList]
      rw [remove_empty_idem x, removeEmptyList_idem xs]

theorem removeEmptyMems_idem :
    ∀ ms : List (String × Json), removeEmptyMems (removeEmptyMems ms) = removeEmptyMems ms
  | [] => rfl
  | (k, v) :: ms => by
      by_cases h : v = Json.str ""
      · simp only [removeEmptyMems, if_pos h]
        exact removeEmptyMems_idem ms
      · simp only [removeEmptyMems, if_neg h, if_neg (remove_empty_ne_emptystr v h)]
        rw [remove_empty_idem v, removeEmptyMems_idem ms]
end

/-- Claim C4: `remove_nulls` removes exactly the object members whose value
is null and `remove_empty_strings` exactly those whose value is the empty
string; array elements are never removed (an array of nulls is unchanged),
and an object emptied of all its members stays in its parent as an empty
object. -/
theorem remove_filters_semantics_C4 :
    (∀ ms : List (String × Json),
        remove_nulls (.obj ms)
          = .obj ((ms.filter fun kv => decide (kv.2 ≠ Json.null)).map
              fun kv => (kv.1, remove_nulls kv.2)))
  ∧ (∀ ms : List (String × Json),
        remove_empty_strings (.obj ms)
          = .obj ((ms.filter fun kv => decide (kv.2 ≠ Json.str "")).map
              fun kv => (kv.1, remove_empty_strings kv.2)))
  ∧ (∀ xs : List Json, remove_nulls (.arr xs) = .arr (xs.map remove_nulls))
  ∧ (∀ xs : List Json, remove_empty_strings (.arr xs) = .arr (xs.map remove_empty_strings))
  ∧ (∀ n : Nat, remove_nulls (.arr (List.replicate n .null)) = .arr (List.replicate n .null))
  ∧ remove_nulls (.obj [("a", .str ""), ("b", .null), ("n", .obj [("a", .str ""), ("b", .null)])])
      = .obj [("a", .str ""), ("n", .obj [("a", .str "")])]
  ∧ remove_empty_strings
        (.obj [("a", .str ""), ("b", .null), ("n", .obj [("a", .str ""), ("b", .null)])])
      = .obj [("b", .null), ("n", .obj [("b", .null)])]
  ∧ remove_nulls (.obj [("x", .obj [("b", .null)])]) = .obj [("x", .obj [])] := by
  refine ⟨?_, ?_, ?_, ?_, ?_, by decide, by decide, by decide⟩
  · intro ms; simp [remove_nulls, removeNullsMems_eq_filter ms]
  · intro ms; simp [remove_empty_strings, removeEmptyMems_eq_filter ms]
  · intro xs; simp [remove_nulls, removeNullsList_eq_map xs]
  · intro xs; simp [remove_empty_strings, removeEmptyList_eq_map xs]
  · intro n
    simp [remove_nulls, removeNullsList_eq_map, List.map_replicate]

/-- Claim C6: both removal filters are idempotent. -/
theorem remove_filters_idempotent_C6 :
    ∀ d : Json,
      remove_nulls (remove_nulls d) = remove_nulls d
      ∧ remove_empty_strings (remove_empty_strings d) = remove_empty_strings d :=
  fun d => ⟨remove_nulls_idem d, remove_empty_idem d⟩

/-! ## No-match identity of the regex rewriters -/

mutual
theorem replace_keys_noop (pat : Pattern) (r : String) :
    ∀ d : Json, (∀ k ∈ allKeys d, pat.test k = false) → replace_keys pat r d = d
  | .null, _ => rfl
  | .bool _, _ => rfl
  | .num _ _, _ => rfl
  | .str _, _ => rfl
  | .arr xs, h => by
      simp only [replace_keys]
      rw [replaceKeysList_noop pat r xs (by simpa [allKeys] using h)]
  | .obj ms, h => by
      simp only [replace_keys]
      rw [replaceKeysMems_noop pat r ms (by simpa [allKeys] using h)]

theorem replaceKeysList_noop (pat : Pattern) (r : String) :
    ∀ xs : List Json, (∀ k ∈ allKeysList xs, pat.test k = false) → replaceKeysList pat r xs = xs
  | [], _ => rfl
  | x :: xs, h => by
      simp only [replaceKeysList]
      rw [replace_keys_noop pat r x (fun k hk => h k (by simp [allKeysList, hk])),
        replaceKeysList_noop pat r xs (fun k hk => h k (by simp [allKeysList, hk]))]

theorem replaceKeysMems_noop (pat : Pattern) (r : String) :
    ∀ ms : List (String × Json),
      (∀ k ∈ allKeysMems ms, pat.test k = false) → replaceKeysMems pat r ms = ms
  | [], _ => rfl
  | (k, v) :: ms, h => by
      simp only [replaceKeysMems]
      rw [pat.subst_id r k (h k (by simp [allKeysMems])),
        replace_keys_noop pat r v (fun k2 hk => h k2 (by simp [allKeysMems, hk])),
        replaceKeysMems_noop pat r ms (fun k2 hk => h k2 (by simp [allKeysMems, hk]))]
end

mutual
theorem replace_values_noop (pat : Pattern) (r : String) :
    ∀ d : Json, (∀ s ∈ allStrs d, pat.test s = false) → replace_values pat r d = d
  | .null, _ => rfl
  | .bool _, _ => rfl
  | .num _ _, _ => rfl
  | .str s, h => by
      simp only [replace_values]
      rw [pat.subst_id r s (h s (by simp [allStrs]))]
  | .arr xs, h => by
      simp only [replace_values]
      rw [replaceValuesList_noop pat r xs (by simpa [allStrs] using h)]
  | .obj ms, h => by
      simp only [replace_values]
      rw [replaceValuesMems_noop pat r ms (by simpa [allStrs] using h)]

theorem replaceValuesList_noop (pat : Pattern) (r : String) :
    ∀ xs : List Json, (∀ s ∈ allStrsList xs, pat.test s = false) → replaceValuesList pat r xs = xs
  | [], _ => rfl
  | x :: xs, h => by
      simp only [replaceValuesList]
      rw [replace_values_noop pat r x (fun s hs => h s (by simp [allStrsList, hs])),
        replaceValuesList_noop pat r xs (fun s hs => h s (by simp [allStrsList, hs]))]

theorem replaceValuesMems_noop (pat : Pattern) (r : String) :
    ∀ ms : List (String × Json),
      (∀ s ∈ allStrsMems ms, pat.test s = false) → replaceValuesMems pat r ms = ms
  | [], _ => rfl
  | (k, v) :: ms, h => by
      simp only [replaceValuesMems]
      rw [replace_values_noop pat r v (fun s hs => h s (by simp [allStrsMems, hs])),
        replaceValuesMems_noop pat r ms (fun s hs => h s (by simp [allStrsMems, hs]))]
end

/-- Claim C5: when the compiled pattern matches no object key of `d`,
`replace_keys` is the identity on `d`; when it matches no string value of
`d`, `replace_values` is the identity on `d`. -/
theorem replace_nomatch_identity_C5 (d : Json) (patK patV : Pattern) (r1 r2 : String)
    (hK : ∀ k ∈ allKeys d, patK.test k = false)
    (hV : ∀ s ∈ allStrs d, patV.test s = false) :
    replace_keys patK r1 d = d ∧ replace_values patV r2 d = d :=
  ⟨replace_keys_noop patK r1 d hK, replace_values_noop patV r2 d hV⟩

/-- Witness for C5: a concrete document whose keys and string values are
untouched by the anchored pattern matching only subjects starting with
"zzz". -/
theorem replace_nomatch_identity_C5_witness :
    replace_keys (startPat "zzz") "w"
        (.obj [("user.name", .str "John"), ("tags", .arr [.str "dev"])])
      = .obj [("user.name", .str "John"), ("tags", .arr [.str "dev"])]
    ∧ replace_values (startPat "zzz") "w"
        (.obj [("user.name", .str "John"), ("tags", .arr [.str "dev"])])
      = .obj [("user.name", .str "John"), ("tags", .arr [.str "dev"])] :=
  replace_nomatch_identity_C5
    (.obj [("user.name", .str "John"), ("tags", .arr [.str "dev"])])
    (startPat "zzz") (startPat "zzz") "w" "w"
    (by decide) (by decide)

/-- Claim C8: `flatten` returns a top-level array unchanged (the documented
legacy asymmetry), while an array occurring as an object member is flattened
into `[i]`-indexed path keys; with the spec's section 8 scenario 1 as a
concrete instance of nested-object flattening. -/
theorem flatten_toplevel_array_C8 :
    (∀ xs : List Json, flatten_json (.arr xs) = .arr xs)
    ∧ flatten_json (.arr [.num true "1", .num true "2", .num true "3"])
        = .arr [.num true "1", .num true "2", .num true "3"]
    ∧ flatten_json (.obj [("items", .arr [.num true "1", .num true "2", .num true "3"])])
        = .obj [("items[0]", .num true "1"), ("items[1]", .num true "2"),
            ("items[2]", .num true "3")]
    ∧ flatten_json (.obj [("person", .obj [("name", .str "John Doe"), ("age", .num true "30"),
          ("address", .obj [("street", .str "123 Main St"), ("city", .str "Anytown")])])])
        = .obj [("person.name", .str "John Doe"), ("person.age", .num true "30"),
            ("person.address.street", .str "123 Main St"),
            ("person.address.city", .str "Anytown")] := by
  refine ⟨fun xs => rfl, by decide, by decide, by decide⟩

/-- Claim C9: the path-type analyzer maps every leaf path of the section 8
scenario 2 input to its scalar type name, distinguishing integer-kind from
real-kind numbers and using bracketed index segments for array elements. -/
theorem path_types_scenario_C9 :
    get_paths_types (.obj [("name", .str "John"), ("age", .num true "30"),
        ("score", .num false "95.5"), ("active", .bool true), ("data", .null),
        ("tags", .arr [.str "dev", .str "python"])])
      = .obj [("name", .str "string"), ("age", .str "integer"), ("score", .str "number"),
          ("active", .str "boolean"), ("data", .str "null"),
          ("tags[0]", .str "string"), ("tags[1]", .str "string")] := by
  decide

/-- Claim C10: after a successful `add_json` with a string argument, a build
with no queued operations and pretty printing off returns exactly the stored
input string, with no re-serialization. -/
theorem builder_passthrough_C10 (b b2 : Builder) (s : String)
    (h : b.addJson s = .ok b2) (hops : b2.operations = []) (hpf : b2.prettyFlag = false) :
    b2.build = .ok s := by
  unfold Builder.addJson at h
  cases hp : jsonParse s with
  | none => rw [hp] at h; exact absurd h (by simp)
  | some v =>
      rw [hp] at h
      have hb2 : b2 = { b with jsonData := some s } := by
        cases h; rfl
      subst hb2
      have h1 : b.operations = [] := hops
      have h2 : b.prettyFlag = false := hpf
      simp [Builder.build, h1, h2]

/-- Witness for C10: a concrete builder holding a specific document string. -/
theorem builder_passthrough_C10_witness :
    Builder.build { jsonData := some "\x7b\"a\": 1\x7d", operations := [], prettyFlag := false }
      = .ok "\x7b\"a\": 1\x7d" :=
  builder_passthrough_C10 Builder.init
    { jsonData := some "\x7b\"a\": 1\x7d", operations := [], prettyFlag := false }
    "\x7b\"a\": 1\x7d" rfl rfl rfl

/-! ## Batch executor: the schedule order does not affect the output vector -/

theorem batchStep_length (f : Json → Json) (ds : List Json) (out : List (Option Json)) (i : Nat) :
    (batchStep f ds out i).length = out.length := by
  unfold batchStep
  cases h : ds[i]? <;> simp

theorem foldl_batchStep_length (f : Json → Json) (ds : List Json) :
    ∀ (order : List Nat) (out : List (Option Json)),
      (order.foldl (batchStep f ds) out).length = out.length
  | [], out => rfl
  | i :: rest, out => by
      simp only [List.foldl_cons]
      rw [foldl_batchStep_length f ds rest (batchStep f ds out i), batchStep_length]

theorem foldl_batchStep_notMem (f : Json → Json) (ds : List Json) :
    ∀ (order : List Nat) (out : List (Option Json)) (j : Nat), j ∉ order →
      (order.foldl (batchStep f ds) out)[j]? = out[j]?
  | [], out, j, _ => rfl
  | i :: rest, out, j, h => by
      have hji : j ≠ i := fun hh => h (hh ▸ List.mem_cons_self i rest)
      have hr : j ∉ rest := fun hh => h (List.mem_cons_of_mem i hh)
      simp only [List.foldl_cons]
      rw [foldl_batchStep_notMem f ds rest (batchStep f ds out i) j hr]
      unfold batchStep
      cases hd : ds[i]? with
      | none => rfl
      | some d => exact List.getElem?_set_ne (fun hh => hji hh.symm)

theorem foldl_batchStep_mem (f : Json → Json) (ds : List Json) :
    ∀ (order : List Nat) (out : List (Option Json)) (j : Nat),
      out.length = ds.length → j ∈ order →
      (order.foldl (batchStep f ds) out)[j]? = (ds[j]?).map fun d => some (f d)
  | [], _, j, _, h => absurd h (List.not_mem_nil j)
  | i :: rest, out, j, hlen, h => by
      by_cases hr : j ∈ rest
      · simp only [List.foldl_cons]
        exact foldl_batchStep_mem f ds rest (batchStep f ds out i) j
          ((batchStep_length f ds out i).trans hlen) hr
      · have hji : j = i := by
          rcases List.mem_cons.mp h with h1 | h2
          · exact h1
          · exact absurd h2 hr
        subst hji
        simp only [List.foldl_cons]
        rw [foldl_batchStep_notMem f ds rest (batchStep f ds out j) j hr]
        unfold batchStep
        cases hd : ds[j]? with
        | none =>
            have : ds.length ≤ j := by
              by_contra hlt
              push_neg at hlt
              rw [List.getElem?_eq_getElem hlt] at hd
              exact Option.noConfusion hd
            simp [List.getElem?_eq_none (hlen ▸ this)]
        | some d =>
            have hj : j < ds.length := by
              by_contra hge
              push_neg at hge
              rw [List.getElem?_eq_none hge] at hd
              exact Option.noConfusion hd
            have hj2 : j < out.length := hlen ▸ hj
            simp [List.getElem?_set_self', List.getElem?_eq_getElem hj2]

/-- Claim C3: for any batch and any worker completion order that covers all
slots, the threaded batch output agrees slot-by-slot with the serial batch:
the result at each output index is the operation applied to the input at the
same index, so parallelism does not change results. -/
theorem batch_slotwise_C3 (f : Json → Json) (ds : List Json) (order : List Nat)
    (hcover : ∀ j, j < ds.length → j ∈ order) :
    threadedBatch f ds order = (serialBatch f ds).map some := by
  apply List.ext_getElem?
  intro n
  by_cases hn : n < ds.length
  · rw [threadedBatch, foldl_batchStep_mem f ds order (List.replicate ds.length none) n
      (List.length_replicate ds.length none) (hcover n hn)]
    simp [serialBatch]
    cases ds[n]? <;> rfl
  · push_neg at hn
    have h1 : (threadedBatch f ds order)[n]? = none :=
      List.getElem?_eq_none (by rw [threadedBatch, foldl_batchStep_length]; simpa using hn)
    have h2 : ((serialBatch f ds).map some)[n]? = none :=
      List.getElem?_eq_none (by simpa [serialBatch] using hn)
    rw [h1, h2]

/-- Witness for C3: two documents processed in reversed completion order
give the serial output. -/
theorem batch_slotwise_C3_witness :
    threadedBatch flatten_json [.obj [("a", .obj [("b", .null)])], .obj []] [1, 0]
      = (serialBatch flatten_json [.obj [("a", .obj [("b", .null)])], .obj []]).map some :=
  batch_slotwise_C3 flatten_json [.obj [("a", .obj [("b", .null)])], .obj []] [1, 0]
    (by decide)

/-! ## Fused pipeline versus multi-pass execution -/

theorem bindFold_none : ∀ S : List Op,
    S.foldl (fun st op => st.bind (memberStep op)) (none : Option (String × Json)) = none
  | [] => rfl
  | op :: S => by
      simp only [List.foldl_cons, Option.bind_none]
      exact bindFold_none S

theorem memberFold_cons (op : Op) (S : List Op) (kv : String × Json) :
    memberFold (op :: S) kv
      = match memberStep op kv with
        | none => none
        | some kv2 => memberFold S kv2 := by
  simp only [memberFold, List.foldl_cons, Option.bind_some]
  cases h : memberStep op kv with
  | none => simp [h, bindFold_none]
  | some kv2 => simp [h]

theorem memberFold_container : ∀ (S : List Op) (k : String) (v : Json),
    isContainer v = true → memberFold S (k, v) = some (keyFold S k, v)
  | [], k, v, _ => rfl
  | op :: S, k, v, hc => by
      rw [memberFold_cons]
      have hnn : v ≠ Json.null := by cases v <;> simp_all [isContainer]
      have hns : v ≠ Json.str "" := by cases v <;> simp_all [isContainer]
      cases op with
      | replaceKeys pat r =>
          simp only [memberStep]
          rw [memberFold_container S (pat.subst r k) v hc]
          rfl
      | removeNulls =>
          simp only [memberStep, if_neg hnn]
          rw [memberFold_container S k v hc]
          rfl
      | removeEmptyStrings =>
          simp only [memberStep, if_neg hns]
          rw [memberFold_container S k v hc]
          rfl
      | replaceValues pat r =>
          have hstep : memberStep (.replaceValues pat r) (k, v) = some (k, v) := by
            cases v <;> simp_all [memberStep, isContainer]
          simp only [hstep]
          rw [memberFold_container S k v hc]
          rfl
      | flattenOp =>
          simp only [memberStep]
          rw [memberFold_container S k v hc]
          rfl

mutual
theorem fusedVisit_nil : ∀ d : Json, fusedVisit [] d = d
  | .null => rfl
  | .bool _ => rfl
  | .num _ _ => rfl
  | .str _ => rfl
  | .arr xs => by simp only [fusedVisit]; rw [fusedList_nil xs]
  | .obj ms => by simp only [fusedVisit]; rw [fusedMems_nil ms]

theorem fusedList_nil : ∀ xs : List Json, fusedList [] xs = xs
  | [] => rfl
  | x :: xs => by
      simp only [fusedList]
      rw [fusedVisit_nil x, fusedList_nil xs]

theorem fusedMems_nil : ∀ ms : List (String × Json), fusedMems [] ms = ms
  | [] => rfl
  | (k, v) :: ms => by
      have hf : memberFold [] (k, v) = some (k, v) := rfl
      cases v with
      | arr xs =>
          simp only [fusedMems, hf]
          rw [fusedVisit_nil (.arr xs), fusedMems_nil ms]
      | obj m2 =>
          simp only [fusedMems, hf]
          rw [fusedVisit_nil (.obj m2), fusedMems_nil ms]
      | null => simp only [fusedMems, hf]; rw [fusedMems_nil ms]
      | bool b => simp only [fusedMems, hf]; rw [fusedMems_nil ms]
      | num i l => simp only [fusedMems, hf]; rw [fusedMems_nil ms]
      | str s => simp only [fusedMems, hf]; rw [fusedMems_nil ms]
end

mutual
theorem skipFlattenVisit (rest : List Op) : ∀ d : Json,
    fusedVisit (Op.flattenOp :: rest) d = fusedVisit rest d
  | .null => rfl
  | .bool _ => rfl
  | .num _ _ => rfl
  | .str _ => rfl
  | .arr xs => by simp only [fusedVisit]; rw [skipFlattenList rest xs]
  | .obj ms => by simp only [fusedVisit]; rw [skipFlattenMems rest ms]

theorem skipFlattenList (rest : List Op) : ∀ xs : List Json,
    fusedList (Op.flattenOp :: rest) xs = fusedList rest xs
  | [] => rfl
  | x :: xs => by
      simp only [fusedList]
      rw [skipFlattenVisit rest x, skipFlattenList rest xs]

theorem skipFlattenMems (rest : List Op) : ∀ ms : List (String × Json),
    fusedMems (Op.flattenOp :: rest) ms = fusedMems rest ms
  | [] => rfl
  | (k, v) :: ms => by
      have hstep : memberStep Op.flattenOp (k, v) = some (k, v) := rfl
      cases hf : memberFold rest (k, v) with
      | none =>
          simp only [fusedMems, memberFold_cons, hstep, hf]
          exact skipFlattenMems rest ms
      | some kv2 =>
          cases v with
          | arr xs =>
              simp only [fusedMems, memberFold_cons, hstep, hf]
              rw [skipFlattenVisit rest (.arr xs), skipFlattenMems rest ms]
          | obj m2 =>
              simp only [fusedMems, memberFold_cons, hstep, hf]
              rw [skipFlattenVisit rest (.obj m2), skipFlattenMems rest ms]
          | null =>
              simp only [fusedMems, memberFold_cons, hstep, hf]
              rw [skipFlattenMems rest ms]
          | bool b =>
              simp only [fusedMems, memberFold_cons, hstep, hf]
              rw [skipFlattenMems rest ms]
          | num i l =>
              simp only [fusedMems, memberFold_cons, hstep, hf]
              rw [skipFlattenMems rest ms]
          | str s =>
              simp only [fusedMems, memberFold_cons, hstep, hf]
              rw [skipFlattenMems rest ms]
end

mutual
theorem absorbRNVisit (rest : List Op) : ∀ d : Json,
    fusedVisit rest (remove_nulls d) = fusedVisit (Op.removeNulls :: rest) d
  | .null => rfl
  | .bool _ => rfl
  | .num _ _ => rfl
  | .str _ => rfl
  | .arr xs => by
      simp only [remove_nulls, fusedVisit]
      rw [absorbRNList rest xs]
  | .obj ms => by
      simp only [remove_nulls, fusedVisit]
      rw [absorbRNMems rest ms]

theorem absorbRNList (rest : List Op) : ∀ xs : List Json,
    fusedList rest (removeNullsList xs) = fusedList (Op.removeNulls :: rest) xs
  | [] => rfl
  | x :: xs => by
      simp only [removeNullsList, fusedList]
      rw [absorbRNVisit rest x, absorbRNList rest xs]

theorem absorbRNMems (rest : List Op) : ∀ ms : List (String × Json),
    fusedMems rest (removeNullsMems ms) = fusedMems (Op.removeNulls :: rest) ms
  | [] => rfl
  | (k, v) :: ms => by
      by_cases hv : v = Json.null
      · subst hv
        have hstep : memberStep Op.removeNulls (k, Json.null) = none := by
          simp [memberStep]
        simp only [removeNullsMems, if_pos rfl, fusedMems, memberFold_cons, hstep]
        exact absorbRNMems rest ms
      · have hstep : memberStep Op.removeNulls (k, v) = some (k, v) := by
          simp [memberStep, hv]
        cases v with
        | arr xs =>
            have hcont : isContainer (Json.arr xs) = true := rfl
            have hcont2 : isContainer (remove_nulls (Json.arr xs)) = true := by
              simp [remove_nulls, isContainer]
            simp only [removeNullsMems, if_neg hv, fusedMems, memberFold_cons, hstep,
              memberFold_container rest k _ hcont2, memberFold_container rest k _ hcont]
            simp only [remove_nulls, fusedVisit]
            rw [absorbRNList rest xs, absorbRNMems rest ms]
        | obj m2 =>
            have hcont : isContainer (Json.obj m2) = true := rfl
            have hcont2 : isContainer (remove_nulls (Json.obj m2)) = true := by
              simp [remove_nulls, isContainer]
            simp only [removeNullsMems, if_neg hv, fusedMems, memberFold_cons, hstep,
              memberFold_container rest k _ hcont2, memberFold_container rest k _ hcont]
            simp only [remove_nulls, fusedVisit]
            rw [absorbRNMems rest m2, absorbRNMems rest ms]
        | null => exact absurd rfl hv
        | bool b =>
            cases hf : memberFold rest (k, .bool b) with
            | none =>
                simp only [removeNullsMems, if_neg hv, fusedMems, memberFold_cons, hstep, hf]
                simp only [remove_nulls]
                rw [hf]
                exact absorbRNMems rest ms
            | some kv2 =>
                simp only [removeNullsMems, if_neg hv, fusedMems, memberFold_cons, hstep, hf]
                simp only [remove_nulls]
                rw [hf, absorbRNMems rest ms]
        | num i l =>
            cases hf : memberFold rest (k, .num i l) with
            | none =>
                simp only [removeNullsMems, if_neg hv, fusedMems, memberFold_cons, hstep, hf]
                simp only [remove_nulls]
                rw [hf]
                exact absorbRNMems rest ms
            | some kv2 =>
                simp only [removeNullsMems, if_neg hv, fusedMems, memberFold_cons, hstep, hf]
                simp only [remove_nulls]
                rw [hf, absorbRNMems rest ms]
        | str s =>
            cases hf : memberFold rest (k, .str s) with
            | none =>
                simp only [removeNullsMems, if_neg hv, fusedMems, memberFold_cons, hstep, hf]
                simp only [remove_nulls]
                rw [hf]
                exact absorbRNMems rest ms
            | some kv2 =>
                simp only [removeNullsMems, if_neg hv, fusedMems, memberFold_cons, hstep, hf]
                simp only [remove_nulls]
                rw [hf, absorbRNMems rest ms]
end

mutual
theorem absorbREVisit (rest : List Op) : ∀ d : Json,
    fusedVisit rest (remove_empty_strings d) = fusedVisit (Op.removeEmptyStrings :: rest) d
  | .null => rfl
  | .bool _ => rfl
  | .num _ _ => rfl
  | .str _ => rfl
  | .arr xs => by
      simp only [remove_empty_strings, fusedVisit]
      rw [absorbREList rest xs]
  | .obj ms => by
      simp only [remove_empty_strings, fusedVisit]
      rw [absorbREMems rest ms]

theorem absorbREList (rest : List Op) : ∀ xs : List Json,
    fusedList rest (removeEmptyList xs) = fusedList (Op.removeEmptyStrings :: rest) xs
  | [] => rfl
  | x :: xs => by
      simp only [removeEmptyList, fusedList]
      rw [absorbREVisit rest x, absorbREList rest xs]

theorem absorbREMems (rest : List Op) : ∀ ms : List (String × Json),
    fusedMems rest (removeEmptyMems ms) = fusedMems (Op.removeEmptyStrings :: rest) ms
  | [] => rfl
  | (k, v) :: ms => by
      by_cases hv : v = Json.str ""
      · subst hv
        have hstep : memberStep Op.removeEmptyStrings (k, Json.str "") = none := by
          simp [memberStep]
        simp only [removeEmptyMems, if_pos rfl, fusedMems, memberFold_cons, hstep]
        exact absorbREMems rest ms
      · have hstep : memberStep Op.removeEmptyStrings (k, v) = some (k, v) := by
          simp [memberStep, hv]
        cases v with
        | arr xs =>
            have hcont : isContainer (Json.arr xs) = true := rfl
            have hcont2 : isContainer (remove_empty_strings (Json.arr xs)) = true := by
              simp [remove_empty_strings, isContainer]
            simp only [removeEmptyMems, if_neg hv, fusedMems, memberFold_cons, hstep,
              memberFold_container rest k _ hcont2, memberFold_container rest k _ hcont]
            simp only [remove_empty_strings, fusedVisit]
            rw [absorbREList rest xs, absorbREMems rest ms]
        | obj m2 =>
            have hcont : isContainer (Json.obj m2) = true := rfl
            have hcont2 : isContainer (remove_empty_strings (Json.obj m2)) = true := by
              simp [remove_empty_strings, isContainer]
            simp only [removeEmptyMems, if_neg hv, fusedMems, memberFold_cons, hstep,
              memberFold_container rest k _ hcont2, memberFold_container rest k _ hcont]
            simp only [remove_empty_strings, fusedVisit]
            rw [absorbREMems rest m2, absorbREMems rest ms]
        | null =>
            cases hf : memberFold rest (k, Json.null) with
            | none =>
                simp only [removeEmptyMems, if_neg hv, fusedMems, memberFold_cons, hstep, hf]
                simp only [remove_empty_strings]
                rw [hf]
                exact absorbREMems rest ms
            | some kv2 =>
                simp only [removeEmptyMems, if_neg hv, fusedMems, memberFold_cons, hstep, hf]
                simp only [remove_empty_strings]
                rw [hf, absorbREMems rest ms]
        | bool b =>
            cases hf : memberFold rest (k, Json.bool b) with
            | none =>
                simp only [removeEmptyMems, if_neg hv, fusedMems, memberFold_cons, hstep, hf]
                simp only [remove_empty_strings]
                rw [hf]
                exact absorbREMems rest ms
            | some kv2 =>
                simp only [removeEmptyMems, if_neg hv, fusedMems, memberFold_cons, hstep, hf]
                simp only [remove_empty_strings]
                rw [hf, absorbREMems rest ms]
        | num i l =>
            cases hf : memberFold rest (k, Json.num i l) with
            | none =>
                simp only [removeEmptyMems, if_neg hv, fusedMems, memberFold_cons, hstep, hf]
                simp only [remove_empty_strings]
                rw [hf]
                exact absorbREMems rest ms
            | some kv2 =>
                simp only [removeEmptyMems, if_neg hv, fusedMems, memberFold_cons, hstep, hf]
                simp only [remove_empty_strings]
                rw [hf, absorbREMems rest ms]
        | str s =>
            cases hf : memberFold rest (k, Json.str s) with
            | none =>
                simp only [removeEmptyMems, if_neg hv, fusedMems, memberFold_cons, hstep, hf]
                simp only [remove_empty_strings]
                rw [hf]
                exact absorbREMems rest ms
            | some kv2 =>
                simp only [removeEmptyMems, if_neg hv, fusedMems, memberFold_cons, hstep, hf]
                simp only [remove_empty_strings]
                rw [hf, absorbREMems rest ms]
end

mutual
theorem absorbRKVisit (pat : Pattern) (r : String) (rest : List Op) : ∀ d : Json,
    fusedVisit rest (replace_keys pat r d) = fusedVisit (Op.replaceKeys pat r :: rest) d
  | .null => rfl
  | .bool _ => rfl
  | .num _ _ => rfl
  | .str _ => rfl
  | .arr xs => by
      simp only [replace_keys, fusedVisit]
      rw [absorbRKList pat r rest xs]
  | .obj ms => by
      simp only [replace_keys, fusedVisit]
      rw [absorbRKMems pat r rest ms]

theorem absorbRKList (pat : Pattern) (r : String) (rest : List Op) : ∀ xs : List Json,
    fusedList rest (replaceKeysList pat r xs) = fusedList (Op.replaceKeys pat r :: rest) xs
  | [] => rfl
  | x :: xs => by
      simp only [replaceKeysList, fusedList]
      rw [absorbRKVisit pat r rest x, absorbRKList pat r rest xs]

theorem absorbRKMems (pat : Pattern) (r : String) (rest : List Op) : ∀ ms : List (String × Json),
    fusedMems rest (replaceKeysMems pat r ms) = fusedMems (Op.replaceKeys pat r :: rest) ms
  | [] => rfl
  | (k, v) :: ms => by
      have hstep : memberStep (Op.replaceKeys pat r) (k, v) = some (pat.subst r k, v) := rfl
      cases v with
      | arr xs =>
          have hcont : isContainer (Json.arr xs) = true := rfl
          have hcont2 : isContainer (replace_keys pat r (Json.arr xs)) = true := by
            simp [replace_keys, isContainer]
          simp only [replaceKeysMems, fusedMems, memberFold_cons, hstep,
            memberFold_container rest _ _ hcont2, memberFold_container rest _ _ hcont]
          simp only [replace_keys, fusedVisit]
          rw [absorbRKList pat r rest xs, absorbRKMems pat r rest ms]
      | obj m2 =>
          have hcont : isContainer (Json.obj m2) = true := rfl
          have hcont2 : isContainer (replace_keys pat r (Json.obj m2)) = true := by
            simp [replace_keys, isContainer]
          simp only [replaceKeysMems, fusedMems, memberFold_cons, hstep,
            memberFold_container rest _ _ hcont2, memberFold_container rest _ _ hcont]
          simp only [replace_keys, fusedVisit]
          rw [absorbRKMems pat r rest m2, absorbRKMems pat r rest ms]
      | null =>
          cases hf : memberFold rest (pat.subst r k, Json.null) with
          | none =>
              simp only [replaceKeysMems, fusedMems, memberFold_cons, hstep]
              simp only [replace_keys]
              rw [hf]
              exact absorbRKMems pat r rest ms
          | some kv2 =>
              simp only [replaceKeysMems, fusedMems, memberFold_cons, hstep]
              simp only [replace_keys]
              rw [hf, absorbRKMems pat r rest ms]
      | bool b =>
          cases hf : memberFold rest (pat.subst r k, Json.bool b) with
          | none =>
              simp only [replaceKeysMems, fusedMems, memberFold_cons, hstep]
              simp only [replace_keys]
              rw [hf]
              exact absorbRKMems pat r rest ms
          | some kv2 =>
              simp only [replaceKeysMems, fusedMems, memberFold_cons, hstep]
              simp only [replace_keys]
              rw [hf, absorbRKMems pat r rest ms]
      | num i l =>
          cases hf : memberFold rest (pat.subst r k, Json.num i l) with
          | none =>
              simp only [replaceKeysMems, fusedMems, memberFold_cons, hstep]
              simp only [replace_keys]
              rw [hf]
              exact absorbRKMems pat r rest ms
          | some kv2 =>
              simp only [replaceKeysMems, fusedMems, memberFold_cons, hstep]
              simp only [replace_keys]
              rw [hf, absorbRKMems pat r rest ms]
      | str s =>
          cases hf : memberFold rest (pat.subst r k, Json.str s) with
          | none =>
              simp only [replaceKeysMems, fusedMems, memberFold_cons, hstep]
              simp only [replace_keys]
              rw [hf]
              exact absorbRKMems pat r rest ms
          | some kv2 =>
              simp only [replaceKeysMems, fusedMems, memberFold_cons, hstep]
              simp only [replace_keys]
              rw [hf, absorbRKMems pat r rest ms]
end

mutual
theorem absorbRVVisit (pat : Pattern) (r : String) (rest : List Op) : ∀ d : Json,
    fusedVisit rest (replace_values pat r d) = fusedVisit (Op.replaceValues pat r :: rest) d
  | .null => rfl
  | .bool _ => rfl
  | .num _ _ => rfl
  | .str s => rfl
  | .arr xs => by
      simp only [replace_values, fusedVisit]
      rw [absorbRVList pat r rest xs]
  | .obj ms => by
      simp only [replace_values, fusedVisit]
      rw [absorbRVMems pat r rest ms]

theorem absorbRVList (pat : Pattern) (r : String) (rest : List Op) : ∀ xs : List Json,
    fusedList rest (replaceValuesList pat r xs) = fusedList (Op.replaceValues pat r :: rest) xs
  | [] => rfl
  | x :: xs => by
      simp only [replaceValuesList, fusedList]
      rw [absorbRVVisit pat r rest x, absorbRVList pat r rest xs]

theorem absorbRVMems (pat : Pattern) (r : String) (rest : List Op) : ∀ ms : List (String × Json),
    fusedMems rest (replaceValuesMems pat r ms) = fusedMems (Op.replaceValues pat r :: rest) ms
  | [] => rfl
  | (k, v) :: ms => by
      cases v with
      | arr xs =>
          have hstep : memberStep (Op.replaceValues pat r) (k, Json.arr xs)
              = some (k, Json.arr xs) := rfl
          have hcont : isContainer (Json.arr xs) = true := rfl
          have hcont2 : isContainer (replace_values pat r (Json.arr xs)) = true := by
            simp [replace_values, isContainer]
          simp only [replaceValuesMems, fusedMems, memberFold_cons, hstep,
            memberFold_container rest _ _ hcont2, memberFold_container rest _ _ hcont]
          simp only [replace_values, fusedVisit]
          rw [absorbRVList pat r rest xs, absorbRVMems pat r rest ms]
      | obj m2 =>
          have hstep : memberStep (Op.replaceValues pat r) (k, Json.obj m2)
              = some (k, Json.obj m2) := rfl
          have hcont : isContainer (Json.obj m2) = true := rfl
          have hcont2 : isContainer (replace_values pat r (Json.obj m2)) = true := by
            simp [replace_values, isContainer]
          simp only [replaceValuesMems, fusedMems, memberFold_cons, hstep,
            memberFold_container rest _ _ hcont2, memberFold_container rest _ _ hcont]
          simp only [replace_values, fusedVisit]
          rw [absorbRVMems pat r rest m2, absorbRVMems pat r rest ms]
      | null =>
          have hstep : memberStep (Op.replaceValues pat r) (k, Json.null)
              = some (k, Json.null) := rfl
          cases hf : memberFold rest (k, Json.null) with
          | none =>
              simp only [replaceValuesMems, fusedMems, memberFold_cons, hstep]
              simp only [replace_values]
              rw [hf]
              exact absorbRVMems pat r rest ms
          | some kv2 =>
              simp only [replaceValuesMems, fusedMems, memberFold_cons, hstep]
              simp only [replace_values]
              rw [hf, absorbRVMems pat r rest ms]
      | bool b =>
          have hstep : memberStep (Op.replaceValues pat r) (k, Json.bool b)
              = some (k, Json.bool b) := rfl
          cases hf : memberFold rest (k, Json.bool b) with
          | none =>
              simp only [replaceValuesMems, fusedMems, memberFold_cons, hstep]
              simp only [replace_values]
              rw [hf]
              exact absorbRVMems pat r rest ms
          | some kv2 =>
              simp only [replaceValuesMems, fusedMems, memberFold_cons, hstep]
              simp only [replace_values]
              rw [hf, absorbRVMems pat r rest ms]
      | num i l =>
          have hstep : memberStep (Op.replaceValues pat r) (k, Json.num i l)
              = some (k, Json.num i l) := rfl
          cases hf : memberFold rest (k, Json.num i l) with
          | none =>
              simp only [replaceValuesMems, fusedMems, memberFold_cons, hstep]
              simp only [replace_values]
              rw [hf]
              exact absorbRVMems pat r rest ms
          | some kv2 =>
              simp only [replaceValuesMems, fusedMems, memberFold_cons, hstep]
              simp only [replace_values]
              rw [hf, absorbRVMems pat r rest ms]
      | str s =>
          have hstep : memberStep (Op.replaceValues pat r) (k, Json.str s)
              = some (k, Json.str (pat.subst r s)) := rfl
          cases hf : memberFold rest (k, Json.str (pat.subst r s)) with
          | none =>
              simp only [replaceValuesMems, fusedMems, memberFold_cons, hstep]
              simp only [replace_values]
              rw [hf]
              exact absorbRVMems pat r rest ms
          | some kv2 =>
              simp only [replaceValuesMems, fusedMems, memberFold_cons, hstep]
              simp only [replace_values]
              rw [hf, absorbRVMems pat r rest ms]
end

theorem fusedVisit_eq_foldl : ∀ (S : List Op) (d : Json),
    fusedVisit S d = (nonFlatten S).foldl (fun a op => applyOp op a) d
  | [], d => fusedVisit_nil d
  | op :: S, d => by
      cases op with
      | flattenOp =>
          rw [skipFlattenVisit S d]
          have h1 : nonFlatten (Op.flattenOp :: S) = nonFlatten S := by
            simp [nonFlatten, List.filter_cons, Op.isFlattenOp]
          rw [h1]
          exact fusedVisit_eq_foldl S d
      | removeNulls =>
          have h1 : nonFlatten (Op.removeNulls :: S) = Op.removeNulls :: nonFlatten S := by
            simp [nonFlatten, List.filter_cons, Op.isFlattenOp]
          rw [h1, List.foldl_cons, ← absorbRNVisit S d]
          exact fusedVisit_eq_foldl S (remove_nulls d)
      | removeEmptyStrings =>
          have h1 : nonFlatten (Op.removeEmptyStrings :: S)
              = Op.removeEmptyStrings :: nonFlatten S := by
            simp [nonFlatten, List.filter_cons, Op.isFlattenOp]
          rw [h1, List.foldl_cons, ← absorbREVisit S d]
          exact fusedVisit_eq_foldl S (remove_empty_strings d)
      | replaceKeys pat r =>
          have h1 : nonFlatten (Op.replaceKeys pat r :: S)
              = Op.replaceKeys pat r :: nonFlatten S := by
            simp [nonFlatten, List.filter_cons, Op.isFlattenOp]
          rw [h1, List.foldl_cons, ← absorbRKVisit pat r S d]
          exact fusedVisit_eq_foldl S (replace_keys pat r d)
      | replaceValues pat r =>
          have h1 : nonFlatten (Op.replaceValues pat r :: S)
              = Op.replaceValues pat r :: nonFlatten S := by
            simp [nonFlatten, List.filter_cons, Op.isFlattenOp]
          rw [h1, List.foldl_cons, ← absorbRVVisit pat r S d]
          exact fusedVisit_eq_foldl S (replace_values pat r d)

/-- Claim C1: for every document and every queued operation list, the fused
single-pass execution of the builder produces the same value tree, and hence
the same output string, as applying the operations one at a time in the
multi-pass fallback way under the section 4.7 ordering contract. -/
theorem fused_equals_multipass_C1 (S : List Op) (d : Json) :
    builderExecute S d = multiPassRef S d
    ∧ serialize (builderExecute S d) = serialize (multiPassRef S d) := by
  have h : builderExecute S d = multiPassRef S d := by
    unfold builderExecute multiPassRef
    rw [fusedVisit_eq_foldl]
  exact ⟨h, by rw [h]⟩

/-- Claim C2: whenever flatten was queued, at whatever position, the build
executes it as the final step: the result is the flattening of the queue-order
composition of the non-flatten operations. -/
theorem flatten_always_last_C2 (S1 S2 : List Op) (d : Json) :
    builderExecute (S1 ++ Op.flattenOp :: S2) d
      = flatten_json ((nonFlatten (S1 ++ S2)).foldl (fun a op => applyOp op a) d) := by
  unfold builderExecute
  have hflat : hasFlattenOp (S1 ++ Op.flattenOp :: S2) = true := by
    simp [hasFlattenOp, Op.isFlattenOp]
  rw [hflat]
  simp only [if_true]
  rw [fusedVisit_eq_foldl]
  have h1 : nonFlatten (S1 ++ Op.flattenOp :: S2) = nonFlatten (S1 ++ S2) := by
    simp [nonFlatten, List.filter_append, List.filter_cons, Op.isFlattenOp]
  rw [h1]

/-! ## Schema merge: type-name set lemmas -/

theorem unionTypes_nil_left (b : List String) : unionTypes [] b = b := by
  cases b <;> simp [unionTypes]

theorem unionTypes_nil_right (a : List String) : unionTypes a [] = a := by
  cases a <;> simp [unionTypes]

theorem unionTypes_cons_eq (t : String) (ts us : List String) :
    unionTypes (t :: ts) (t :: us) = t :: unionTypes ts us := by
  simp [unionTypes]

theorem unionTypes_cons_lt (t u : String) (ts us : List String) (h : t < u) :
    unionTypes (t :: ts) (u :: us) = t :: unionTypes ts (u :: us) := by
  simp [unionTypes, ne_of_lt h, h]

theorem unionTypes_cons_gt (t u : String) (ts us : List String) (h1 : ¬t = u) (h2 : ¬t < u) :
    unionTypes (t :: ts) (u :: us) = u :: unionTypes (t :: ts) us := by
  simp [unionTypes, h1, h2]

theorem mem_unionTypes : ∀ (a b : List String) (x : String),
    x ∈ unionTypes a b ↔ x ∈ a ∨ x ∈ b
  | [], ts, x => by simp [unionTypes_nil_left]
  | t :: ts, [], x => by simp [unionTypes_nil_right]
  | t :: ts, u :: us, x => by
      by_cases h1 : t = u
      · subst h1
        rw [unionTypes_cons_eq]
        simp only [List.mem_cons, mem_unionTypes ts us x]
        tauto
      · by_cases h2 : t < u
        · rw [unionTypes_cons_lt t u ts us h2]
          simp only [List.mem_cons, mem_unionTypes ts (u :: us) x, List.mem_cons]
          tauto
        · rw [unionTypes_cons_gt t u ts us h1 h2]
          simp only [List.mem_cons, mem_unionTypes (t :: ts) us x, List.mem_cons]
          tauto
termination_by a b _ => a.length + b.length

theorem sorted_unionTypes : ∀ (a b : List String),
    List.Pairwise (fun x y => x < y) a → List.Pairwise (fun x y => x < y) b →
    List.Pairwise (fun x y => x < y) (unionTypes a b)
  | [], ts, _, hb => by simpa [unionTypes_nil_left] using hb
  | t :: ts, [], ha, _ => by simpa [unionTypes_nil_right] using ha
  | t :: ts, u :: us, ha, hb => by
      replace ha := List.pairwise_cons.mp ha
      replace hb := List.pairwise_cons.mp hb
      by_cases h1 : t = u
      · subst h1
        rw [unionTypes_cons_eq]
        refine List.pairwise_cons.mpr ⟨?_, sorted_unionTypes ts us ha.2 hb.2⟩
        intro x hx
        rcases (mem_unionTypes ts us x).mp hx with h | h
        · exact ha.1 x h
        · exact hb.1 x h
      · by_cases h2 : t < u
        · rw [unionTypes_cons_lt t u ts us h2]
          refine List.pairwise_cons.mpr
            ⟨?_, sorted_unionTypes ts (u :: us) ha.2 (List.pairwise_cons.mpr hb)⟩
          intro x hx
          rcases (mem_unionTypes ts (u :: us) x).mp hx with h | h
          · exact ha.1 x h
          · rcases List.mem_cons.mp h with h3 | h3
            · exact h3 ▸ h2
            · exact lt_trans h2 (hb.1 x h3)
        · have h3 : u < t := by
            rcases lt_trichotomy t u with h4 | h4 | h4
            · exact absurd h4 h2
            · exact absurd h4 h1
            · exact h4
          rw [unionTypes_cons_gt t u ts us h1 h2]
          refine List.pairwise_cons.mpr
            ⟨?_, sorted_unionTypes (t :: ts) us (List.pairwise_cons.mpr ha) hb.2⟩
          intro x hx
          rcases (mem_unionTypes (t :: ts) us x).mp hx with h | h
          · rcases List.mem_cons.mp h with h4 | h4
            · exact h4 ▸ h3
            · exact lt_trans h3 (ha.1 x h4)
          · exact hb.1 x h
termination_by a b _ _ => a.length + b.length

theorem sortedStr_ext : ∀ (a b : List String),
    List.Pairwise (fun x y => x < y) a → List.Pairwise (fun x y => x < y) b →
    (∀ x, x ∈ a ↔ x ∈ b) → a = b
  | [], [], _, _, _ => rfl
  | [], y :: b, _, _, h => absurd ((h y).mpr (List.mem_cons_self y b)) (List.not_mem_nil y)
  | x :: a, [], _, _, h => absurd ((h x).mp (List.mem_cons_self x a)) (List.not_mem_nil x)
  | x :: a, y :: b, ha, hb, h => by
      replace ha := List.pairwise_cons.mp ha
      replace hb := List.pairwise_cons.mp hb
      have hxy : x = y := by
        rcases List.mem_cons.mp ((h x).mp (List.mem_cons_self x a)) with h1 | h1
        · exact h1
        · rcases List.mem_cons.mp ((h y).mpr (List.mem_cons_self y b)) with h2 | h2
          · exact h2.symm
          · exact absurd (lt_trans (hb.1 x h1) (ha.1 y h2)) (lt_irrefl y)
      subst hxy
      have htl : ∀ z, z ∈ a ↔ z ∈ b := by
        intro z
        constructor
        · intro hz
          rcases List.mem_cons.mp ((h z).mp (List.mem_cons_of_mem x hz)) with h1 | h1
          · exact absurd (h1 ▸ ha.1 z hz) (lt_irrefl z)
          · exact h1
        · intro hz
          rcases List.mem_cons.mp ((h z).mpr (List.mem_cons_of_mem x hz)) with h1 | h1
          · exact absurd (h1 ▸ hb.1 z hz) (lt_irrefl z)
          · exact h1
      rw [sortedStr_ext a b ha.2 hb.2 htl]

theorem unionTypes_comm (a b : List String)
    (ha : List.Pairwise (fun x y => x < y) a) (hb : List.Pairwise (fun x y => x < y) b) :
    unionTypes a b = unionTypes b a :=
  sortedStr_ext (unionTypes a b) (unionTypes b a)
    (sorted_unionTypes a b ha hb) (sorted_unionTypes b a hb ha)
    (fun x => by rw [mem_unionTypes, mem_unionTypes]; tauto)

theorem unionTypes_assoc (a b c : List String)
    (ha : List.Pairwise (fun x y => x < y) a) (hb : List.Pairwise (fun x y => x < y) b)
    (hc : List.Pairwise (fun x y => x < y) c) :
    unionTypes (unionTypes a b) c = unionTypes a (unionTypes b c) :=
  sortedStr_ext (unionTypes (unionTypes a b) c) (unionTypes a (unionTypes b c))
    (sorted_unionTypes (unionTypes a b) c (sorted_unionTypes a b ha hb) hc)
    (sorted_unionTypes a (unionTypes b c) ha (sorted_unionTypes b c hb hc))
    (fun x => by
      rw [mem_unionTypes, mem_unionTypes, mem_unionTypes, mem_unionTypes]
      tauto)

/-! ## Schema merge: property-list lemmas -/

theorem mergeProps_nil_left (qs : List (String × Schema)) : mergeProps [] qs = qs := by
  cases qs <;> simp [mergeProps]

theorem mergeProps_nil_right (ps : List (String × Schema)) : mergeProps ps [] = ps := by
  cases ps <;> simp [mergeProps]

theorem mergeProps_cons_eq (k : String) (s1 s2 : Schema) (ps qs : List (String × Schema)) :
    mergeProps ((k, s1) :: ps) ((k, s2) :: qs) = (k, mergeS s1 s2) :: mergeProps ps qs := by
  simp [mergeProps]

theorem mergeProps_cons_lt (k1 k2 : String) (s1 s2 : Schema) (ps qs : List (String × Schema))
    (h : k1 < k2) :
    mergeProps ((k1, s1) :: ps) ((k2, s2) :: qs) = (k1, s1) :: mergeProps ps ((k2, s2) :: qs) := by
  simp [mergeProps, ne_of_lt h, h]

theorem mergeProps_cons_gt (k1 k2 : String) (s1 s2 : Schema) (ps qs : List (String × Schema))
    (h1 : ¬k1 = k2) (h2 : ¬k1 < k2) :
    mergeProps ((k1, s1) :: ps) ((k2, s2) :: qs) = (k2, s2) :: mergeProps ((k1, s1) :: ps) qs := by
  simp [mergeProps, h1, h2]

theorem mergeItems_none_left (i : Option Schema) : mergeItems none i = i := by
  cases i <;> simp [mergeItems]

theorem mergeItems_none_right (i : Option Schema) : mergeItems i none = i := by
  cases i <;> simp [mergeItems]

theorem mem_mergeProps_origin : ∀ (ps qs : List (String × Schema)) (kv : String × Schema),
    kv ∈ mergeProps ps qs →
    kv ∈ ps ∨ kv ∈ qs ∨ ∃ s1 s2, (kv.1, s1) ∈ ps ∧ (kv.1, s2) ∈ qs ∧ kv.2 = mergeS s1 s2
  | [], qs, kv => by simp [mergeProps_nil_left]
  | p :: ps, [], kv => by simp [mergeProps_nil_right]
  | (k1, s1) :: ps, (k2, s2) :: qs, kv => by
      by_cases h1 : k1 = k2
      · subst h1
        rw [mergeProps_cons_eq]
        intro hkv
        rcases List.mem_cons.mp hkv with h | h
        · subst h
          refine Or.inr (Or.inr ⟨s1, s2, ?_, ?_, rfl⟩) <;> simp
        · rcases mem_mergeProps_origin ps qs kv h with h2 | h2 | ⟨a, b, ha, hb, he⟩
          · exact Or.inl (List.mem_cons_of_mem _ h2)
          · exact Or.inr (Or.inl (List.mem_cons_of_mem _ h2))
          · exact Or.inr (Or.inr ⟨a, b, List.mem_cons_of_mem _ ha,
              List.mem_cons_of_mem _ hb, he⟩)
      · by_cases h2 : k1 < k2
        · rw [mergeProps_cons_lt k1 k2 s1 s2 ps qs h2]
          intro hkv
          rcases List.mem_cons.mp hkv with h | h
          · exact Or.inl (h ▸ List.mem_cons_self _ _)
          · rcases mem_mergeProps_origin ps ((k2, s2) :: qs) kv h with h3 | h3 | ⟨a, b, ha, hb, he⟩
            · exact Or.inl (List.mem_cons_of_mem _ h3)
            · exact Or.inr (Or.inl h3)
            · exact Or.inr (Or.inr ⟨a, b, List.mem_cons_of_mem _ ha, hb, he⟩)
        · rw [mergeProps_cons_gt k1 k2 s1 s2 ps qs h1 h2]
          intro hkv
          rcases List.mem_cons.mp hkv with h | h
          · exact Or.inr (Or.inl (h ▸ List.mem_cons_self _ _))
          · rcases mem_mergeProps_origin ((k1, s1) :: ps) qs kv h with h3 | h3 | ⟨a, b, ha, hb, he⟩
            · exact Or.inl h3
            · exact Or.inr (Or.inl (List.mem_cons_of_mem _ h3))
            · exact Or.inr (Or.inr ⟨a, b, ha, List.mem_cons_of_mem _ hb, he⟩)
termination_by ps qs _ => ps.length + qs.length

theorem sorted_mergeProps : ∀ (ps qs : List (String × Schema)),
    List.Pairwise (fun a b => a.1 < b.1) ps → List.Pairwise (fun a b => a.1 < b.1) qs →
    List.Pairwise (fun a b => a.1 < b.1) (mergeProps ps qs)
  | [], qs, _, hb => by simpa [mergeProps_nil_left] using hb
  | p :: ps, [], ha, _ => by simpa [mergeProps_nil_right] using ha
  | (k1, s1) :: ps, (k2, s2) :: qs, ha, hb => by
      replace ha := List.pairwise_cons.mp ha
      replace hb := List.pairwise_cons.mp hb
      have bound : ∀ (k : String) (rest1 rest2 : List (String × Schema)),
          (∀ kv ∈ rest1, k < kv.1) → (∀ kv ∈ rest2, k < kv.1) →
          ∀ kv ∈ mergeProps rest1 rest2, k < kv.1 := by
        intro k rest1 rest2 hr1 hr2 kv hkv
        rcases mem_mergeProps_origin rest1 rest2 kv hkv with h | h | ⟨a, b, hma, hmb, he⟩
        · exact hr1 kv h
        · exact hr2 kv h
        · exact hr1 (kv.1, a) hma
      by_cases h1 : k1 = k2
      · subst h1
        rw [mergeProps_cons_eq]
        refine List.pairwise_cons.mpr ⟨?_, sorted_mergeProps ps qs ha.2 hb.2⟩
        exact bound k1 ps qs ha.1 hb.1
      · by_cases h2 : k1 < k2
        · rw [mergeProps_cons_lt k1 k2 s1 s2 ps qs h2]
          refine List.pairwise_cons.mpr
            ⟨?_, sorted_mergeProps ps ((k2, s2) :: qs) ha.2 (List.pairwise_cons.mpr hb)⟩
          refine bound k1 ps ((k2, s2) :: qs) ha.1 ?_
          intro kv hkv
          rcases List.mem_cons.mp hkv with h | h
          · rw [h]; exact h2
          · exact lt_trans h2 (hb.1 kv h)
        · have h3 : k2 < k1 := by
            rcases lt_trichotomy k1 k2 with h4 | h4 | h4
            · exact absurd h4 h2
            · exact absurd h4 h1
            · exact h4
          rw [mergeProps_cons_gt k1 k2 s1 s2 ps qs h1 h2]
          refine List.pairwise_cons.mpr
            ⟨?_, sorted_mergeProps ((k1, s1) :: ps) qs (List.pairwise_cons.mpr ha) hb.2⟩
          refine bound k2 ((k1, s1) :: ps) qs ?_ hb.1
          intro kv hkv
          rcases List.mem_cons.mp hkv with h | h
          · rw [h]; exact h3
          · exact lt_trans h3 (ha.1 kv h)
termination_by ps qs _ _ => ps.length + qs.length

theorem lookup_none_of_forall_lt (k : String) :
    ∀ ps : List (String × Schema), (∀ kv ∈ ps, k < kv.1) → ps.lookup k = none
  | [], _ => rfl
  | (k1, s1) :: ps, h => by
      have hne : k ≠ k1 := ne_of_lt (h (k1, s1) (List.mem_cons_self _ _))
      simp only [List.lookup, beq_eq_false_iff_ne.mpr hne]
      exact lookup_none_of_forall_lt k ps (fun kv hkv => h kv (List.mem_cons_of_mem _ hkv))

theorem lookup_some_mem (k : String) (s : Schema) :
    ∀ ps : List (String × Schema), ps.lookup k = some s → (k, s) ∈ ps
  | [], h => Option.noConfusion h
  | (k1, s1) :: ps, h => by
      by_cases he : k = k1
      · subst he
        simp only [List.lookup, beq_self_eq_true] at h
        cases h
        exact List.mem_cons_self _ _
      · simp only [List.lookup, beq_eq_false_iff_ne.mpr he] at h
        exact List.mem_cons_of_mem _ (lookup_some_mem k s ps h)

theorem lookup_mergeProps : ∀ (ps qs : List (String × Schema)),
    List.Pairwise (fun a b => a.1 < b.1) ps → List.Pairwise (fun a b => a.1 < b.1) qs →
    ∀ k, (mergeProps ps qs).lookup k = mergeItems (ps.lookup k) (qs.lookup k)
  | [], qs, _, _, k => by
      rw [mergeProps_nil_left]
      simp [List.lookup, mergeItems_none_left]
  | p :: ps, [], _, _, k => by
      rw [mergeProps_nil_right]
      simp [List.lookup, mergeItems_none_right]
  | (k1, s1) :: ps, (k2, s2) :: qs, ha, hb, k => by
      replace ha := List.pairwise_cons.mp ha
      replace hb := List.pairwise_cons.mp hb
      by_cases h1 : k1 = k2
      · subst h1
        rw [mergeProps_cons_eq]
        by_cases hk : k = k1
        · subst hk
          simp [List.lookup, mergeItems]
        · simp only [List.lookup, beq_eq_false_iff_ne.mpr hk]
          exact lookup_mergeProps ps qs ha.2 hb.2 k
      · by_cases h2 : k1 < k2
        · rw [mergeProps_cons_lt k1 k2 s1 s2 ps qs h2]
          by_cases hk : k = k1
          · subst hk
            have hq : ((k2, s2) :: qs).lookup k = none := by
              refine lookup_none_of_forall_lt k _ ?_
              intro kv hkv
              rcases List.mem_cons.mp hkv with h | h
              · rw [h]; exact h2
              · exact lt_trans h2 (hb.1 kv h)
            rw [hq]
            simp [List.lookup, mergeItems_none_right]
          · simp only [List.lookup, beq_eq_false_iff_ne.mpr hk]
            exact lookup_mergeProps ps ((k2, s2) :: qs) ha.2 (List.pairwise_cons.mpr hb) k
        · have h3 : k2 < k1 := by
            rcases lt_trichotomy k1 k2 with h4 | h4 | h4
            · exact absurd h4 h2
            · exact absurd h4 h1
            · exact h4
          rw [mergeProps_cons_gt k1 k2 s1 s2 ps qs h1 h2]
          by_cases hk : k = k2
          · subst hk
            have hp : ((k1, s1) :: ps).lookup k = none := by
              refine lookup_none_of_forall_lt k _ ?_
              intro kv hkv
              rcases List.mem_cons.mp hkv with h | h
              · rw [h]; exact h3
              · exact lt_trans h3 (ha.1 kv h)
            rw [hp]
            simp [List.lookup, mergeItems_none_left]
          · simp only [List.lookup, beq_eq_false_iff_ne.mpr hk]
            exact lookup_mergeProps ((k1, s1) :: ps) qs (List.pairwise_cons.mpr ha) hb.2 k
termination_by ps qs _ _ _ => ps.length + qs.length

theorem props_ext : ∀ (ps qs : List (String × Schema)),
    List.Pairwise (fun a b => a.1 < b.1) ps → List.Pairwise (fun a b => a.1 < b.1) qs →
    (∀ k, ps.lookup k = qs.lookup k) → ps = qs
  | [], [], _, _, _ => rfl
  | [], (k2, s2) :: qs, _, _, h => by
      have := h k2
      simp [List.lookup] at this
  | (k1, s1) :: ps, [], _, _, h => by
      have := h k1
      simp [List.lookup] at this
  | (k1, s1) :: ps, (k2, s2) :: qs, ha, hb, h => by
      replace ha := List.pairwise_cons.mp ha
      replace hb := List.pairwise_cons.mp hb
      have hkeys : k1 = k2 := by
        by_contra hne
        have hl1 := h k1
        have hl2 := h k2
        simp only [List.lookup, beq_self_eq_true, beq_eq_false_iff_ne.mpr hne,
          beq_eq_false_iff_ne.mpr (Ne.symm hne)] at hl1 hl2
        have hm1 := lookup_some_mem k1 s1 qs hl1.symm
        have hm2 := lookup_some_mem k2 s2 ps hl2
        exact absurd (lt_trans (ha.1 (k2, s2) hm2) (hb.1 (k1, s1) hm1)) (lt_irrefl k1)
      subst hkeys
      have hval : s1 = s2 := by
        have := h k1
        simp [List.lookup] at this
        exact this
      subst hval
      have htl : ∀ k, ps.lookup k = qs.lookup k := by
        intro k
        by_cases hk : k = k1
        · subst hk
          rw [lookup_none_of_forall_lt k ps ha.1, lookup_none_of_forall_lt k qs hb.1]
        · have := h k
          simp only [List.lookup, beq_eq_false_iff_ne.mpr hk] at this
          exact this
      rw [props_ext ps qs ha.2 hb.2 htl]

/-! ## Schema merge: canonicity, commutativity, associativity -/

theorem schema_sizeOf_pos (s : Schema) : 0 < sizeOf s := by
  cases s
  simp only [Schema.node.sizeOf_spec]
  omega

theorem sizeOf_lt_of_mem_props :
    ∀ (ps : List (String × Schema)) (kv : String × Schema), kv ∈ ps → sizeOf kv.2 < sizeOf ps
  | [], kv, h => absurd h (List.not_mem_nil kv)
  | p :: ps, kv, h => by
      rcases List.mem_cons.mp h with h1 | h1
      · subst h1
        obtain ⟨k, s⟩ := kv
        simp only [List.cons.sizeOf_spec, Prod.mk.sizeOf_spec]
        omega
      · have := sizeOf_lt_of_mem_props ps kv h1
        simp only [List.cons.sizeOf_spec]
        omega

theorem canon_types_sorted {s : Schema} (h : Canon s) :
    List.Pairwise (fun x y => x < y) s.typesOf := by
  cases h
  exact ‹TypesSorted _›

theorem canon_props_sorted {s : Schema} (h : Canon s) :
    List.Pairwise (fun a b => a.1 < b.1) s.propsOf := by
  cases h
  exact ‹PropsSorted _›

theorem canon_props_canon {s : Schema} (h : Canon s) :
    ∀ kv ∈ s.propsOf, Canon kv.2 := by
  cases h
  assumption

theorem canon_items_canon {s : Schema} (h : Canon s) :
    ∀ t, s.itemsOf = some t → Canon t := by
  cases h
  assumption

theorem mergeS_canon_fuel :
    ∀ n s t, sizeOf s + sizeOf t ≤ n → Canon s → Canon t → Canon (mergeS s t) := by
  intro n
  induction n with
  | zero =>
      intro s t h _ _
      have := schema_sizeOf_pos s
      omega
  | succ n ih =>
      intro s t h hs ht
      cases hs with
      | mk ts1 ps1 i1 hts1 hps1 hsub1 hit1 =>
      cases ht with
      | mk ts2 ps2 i2 hts2 hps2 hsub2 hit2 =>
      rw [mergeS]
      have hn1 : sizeOf (Schema.node ts1 ps1 i1) = 1 + sizeOf ts1 + sizeOf ps1 + sizeOf i1 :=
        Schema.node.sizeOf_spec ts1 ps1 i1
      have hn2 : sizeOf (Schema.node ts2 ps2 i2) = 1 + sizeOf ts2 + sizeOf ps2 + sizeOf i2 :=
        Schema.node.sizeOf_spec ts2 ps2 i2
      refine Canon.mk _ _ _ (sorted_unionTypes ts1 ts2 hts1 hts2)
        (sorted_mergeProps ps1 ps2 hps1 hps2) ?_ ?_
      · intro kv hkv
        rcases mem_mergeProps_origin ps1 ps2 kv hkv with h1 | h1 | ⟨a, b, hma, hmb, he⟩
        · exact hsub1 kv h1
        · exact hsub2 kv h1
        · rw [he]
          have sa := sizeOf_lt_of_mem_props ps1 (kv.1, a) hma
          have sb := sizeOf_lt_of_mem_props ps2 (kv.1, b) hmb
          simp only [Prod.mk.sizeOf_spec] at sa sb
          refine ih a b (by omega) (hsub1 (kv.1, a) hma) (hsub2 (kv.1, b) hmb)
      · intro t hsome
        cases i1 with
        | none =>
            rw [mergeItems_none_left] at hsome
            exact hit2 t hsome
        | some x =>
            cases i2 with
            | none =>
                rw [mergeItems_none_right] at hsome
                exact hit1 t hsome
            | some y =>
                simp only [mergeItems] at hsome
                cases hsome
                have sx : sizeOf (some x) = 1 + sizeOf x := Option.some.sizeOf_spec x
                have sy : sizeOf (some y) = 1 + sizeOf y := Option.some.sizeOf_spec y
                exact ih x y (by omega) (hit1 x rfl) (hit2 y rfl)

theorem mergeS_canon {s t : Schema} (hs : Canon s) (ht : Canon t) : Canon (mergeS s t) :=
  mergeS_canon_fuel (sizeOf s + sizeOf t) s t le_rfl hs ht

theorem mergeS_comm_fuel :
    ∀ n s t, sizeOf s + sizeOf t ≤ n → Canon s → Canon t → mergeS s t = mergeS t s := by
  intro n
  induction n with
  | zero =>
      intro s t h _ _
      have := schema_sizeOf_pos s
      omega
  | succ n ih =>
      intro s t h hs ht
      have hs' := hs
      have ht' := ht
      cases hs with
      | mk ts1 ps1 i1 hts1 hps1 hsub1 hit1 =>
      cases ht with
      | mk ts2 ps2 i2 hts2 hps2 hsub2 hit2 =>
      have hn1 : sizeOf (Schema.node ts1 ps1 i1) = 1 + sizeOf ts1 + sizeOf ps1 + sizeOf i1 :=
        Schema.node.sizeOf_spec ts1 ps1 i1
      have hn2 : sizeOf (Schema.node ts2 ps2 i2) = 1 + sizeOf ts2 + sizeOf ps2 + sizeOf i2 :=
        Schema.node.sizeOf_spec ts2 ps2 i2
      rw [mergeS, mergeS]
      congr 1
      · exact unionTypes_comm ts1 ts2 hts1 hts2
      · refine props_ext (mergeProps ps1 ps2) (mergeProps ps2 ps1)
          (sorted_mergeProps ps1 ps2 hps1 hps2) (sorted_mergeProps ps2 ps1 hps2 hps1) ?_
        intro k
        rw [lookup_mergeProps ps1 ps2 hps1 hps2 k, lookup_mergeProps ps2 ps1 hps2 hps1 k]
        cases hl1 : ps1.lookup k with
        | none => rw [mergeItems_none_left, mergeItems_none_right]
        | some a =>
            cases hl2 : ps2.lookup k with
            | none => rw [mergeItems_none_left, mergeItems_none_right]
            | some b =>
                simp only [mergeItems]
                have hma := lookup_some_mem k a ps1 hl1
                have hmb := lookup_some_mem k b ps2 hl2
                have sa := sizeOf_lt_of_mem_props ps1 (k, a) hma
                have sb := sizeOf_lt_of_mem_props ps2 (k, b) hmb
                simp only [Prod.mk.sizeOf_spec] at sa sb
                rw [ih a b (by omega) (hsub1 (k, a) hma) (hsub2 (k, b) hmb)]
      · cases i1 with
        | none => rw [mergeItems_none_left, mergeItems_none_right]
        | some x =>
            cases i2 with
            | none => rw [mergeItems_none_left, mergeItems_none_right]
            | some y =>
                simp only [mergeItems]
                have sx : sizeOf (some x) = 1 + sizeOf x := Option.some.sizeOf_spec x
                have sy : sizeOf (some y) = 1 + sizeOf y := Option.some.sizeOf_spec y
                rw [ih x y (by omega) (hit1 x rfl) (hit2 y rfl)]

theorem mergeS_comm {s t : Schema} (hs : Canon s) (ht : Canon t) : mergeS s t = mergeS t s :=
  mergeS_comm_fuel (sizeOf s + sizeOf t) s t le_rfl hs ht

theorem mergeS_assoc_fuel :
    ∀ n s t u, sizeOf s + sizeOf t + sizeOf u ≤ n → Canon s → Canon t → Canon u →
      mergeS (mergeS s t) u = mergeS s (mergeS t u) := by
  intro n
  induction n with
  | zero =>
      intro s t u h _ _ _
      have := schema_sizeOf_pos s
      omega
  | succ n ih =>
      intro s t u h hs ht hu
      cases hs with
      | mk ts1 ps1 i1 hts1 hps1 hsub1 hit1 =>
      cases ht with
      | mk ts2 ps2 i2 hts2 hps2 hsub2 hit2 =>
      cases hu with
      | mk ts3 ps3 i3 hts3 hps3 hsub3 hit3 =>
      have hn1 : sizeOf (Schema.node ts1 ps1 i1) = 1 + sizeOf ts1 + sizeOf ps1 + sizeOf i1 :=
        Schema.node.sizeOf_spec ts1 ps1 i1
      have hn2 : sizeOf (Schema.node ts2 ps2 i2) = 1 + sizeOf ts2 + sizeOf ps2 + sizeOf i2 :=
        Schema.node.sizeOf_spec ts2 ps2 i2
      have hn3 : sizeOf (Schema.node ts3 ps3 i3) = 1 + sizeOf ts3 + sizeOf ps3 + sizeOf i3 :=
        Schema.node.sizeOf_spec ts3 ps3 i3
      rw [mergeS, mergeS, mergeS, mergeS]
      congr 1
      · exact unionTypes_assoc ts1 ts2 ts3 hts1 hts2 hts3
      · refine props_ext _ _
          (sorted_mergeProps (mergeProps ps1 ps2) ps3
            (sorted_mergeProps ps1 ps2 hps1 hps2) hps3)
          (sorted_mergeProps ps1 (mergeProps ps2 ps3) hps1
            (sorted_mergeProps ps2 ps3 hps2 hps3)) ?_
        intro k
        rw [lookup_mergeProps (mergeProps ps1 ps2) ps3
            (sorted_mergeProps ps1 ps2 hps1 hps2) hps3 k,
          lookup_mergeProps ps1 (mergeProps ps2 ps3) hps1
            (sorted_mergeProps ps2 ps3 hps2 hps3) k,
          lookup_mergeProps ps1 ps2 hps1 hps2 k,
          lookup_mergeProps ps2 ps3 hps2 hps3 k]
        cases hl1 : ps1.lookup k with
        | none =>
            rw [mergeItems_none_left, mergeItems_none_left]
        | some a =>
            cases hl2 : ps2.lookup k with
            | none =>
                rw [mergeItems_none_right, mergeItems_none_left]
            | some b =>
                cases hl3 : ps3.lookup k with
                | none =>
                    rw [mergeItems_none_right, mergeItems_none_right]
                | some c =>
                    simp only [mergeItems]
                    have hma := lookup_some_mem k a ps1 hl1
                    have hmb := lookup_some_mem k b ps2 hl2
                    have hmc := lookup_some_mem k c ps3 hl3
                    have sa := sizeOf_lt_of_mem_props ps1 (k, a) hma
                    have sb := sizeOf_lt_of_mem_props ps2 (k, b) hmb
                    have sc := sizeOf_lt_of_mem_props ps3 (k, c) hmc
                    simp only [Prod.mk.sizeOf_spec] at sa sb sc
                    rw [ih a b c (by omega) (hsub1 (k, a) hma) (hsub2 (k, b) hmb)
                      (hsub3 (k, c) hmc)]
      · cases i1 with
        | none => rw [mergeItems_none_left, mergeItems_none_left]
        | some x =>
            cases i2 with
            | none => rw [mergeItems_none_right, mergeItems_none_left]
            | some y =>
                cases i3 with
                | none => rw [mergeItems_none_right, mergeItems_none_right]
                | some z =>
                    simp only [mergeItems]
                    have sx : sizeOf (some x) = 1 + sizeOf x := Option.some.sizeOf_spec x
                    have sy : sizeOf (some y) = 1 + sizeOf y := Option.some.sizeOf_spec y
                    have sz : sizeOf (some z) = 1 + sizeOf z := Option.some.sizeOf_spec z
                    rw [ih x y z (by omega) (hit1 x rfl) (hit2 y rfl) (hit3 z rfl)]

theorem mergeS_assoc {s t u : Schema} (hs : Canon s) (ht : Canon t) (hu : Canon u) :
    mergeS (mergeS s t) u = mergeS s (mergeS t u) :=
  mergeS_assoc_fuel (sizeOf s + sizeOf t + sizeOf u) s t u le_rfl hs ht hu

/-! ## Canonicity of generated schemas and batch merging -/

theorem mem_insertProp (k : String) (s : Schema) :
    ∀ (ps : List (String × Schema)) (kv : String × Schema),
      kv ∈ insertProp k s ps → kv = (k, s) ∨ kv ∈ ps
  | [], kv, h => by simpa [insertProp] using h
  | (k1, s1) :: ps, kv, h => by
      by_cases h1 : k = k1
      · subst h1
        simp only [insertProp, if_pos rfl] at h
        rcases List.mem_cons.mp h with h2 | h2
        · exact Or.inl h2
        · exact Or.inr (List.mem_cons_of_mem _ h2)
      · by_cases h2 : k < k1
        · simp only [insertProp, if_neg h1, if_pos h2] at h
          rcases List.mem_cons.mp h with h3 | h3
          · exact Or.inl h3
          · exact Or.inr h3
        · simp only [insertProp, if_neg h1, if_neg h2] at h
          rcases List.mem_cons.mp h with h3 | h3
          · exact Or.inr (h3 ▸ List.mem_cons_self _ _)
          · rcases mem_insertProp k s ps kv h3 with h4 | h4
            · exact Or.inl h4
            · exact Or.inr (List.mem_cons_of_mem _ h4)

theorem insertProp_sorted (k : String) (s : Schema) :
    ∀ ps : List (String × Schema),
      List.Pairwise (fun a b => a.1 < b.1) ps →
      List.Pairwise (fun a b => a.1 < b.1) (insertProp k s ps)
  | [], _ => by simp [insertProp]
  | (k1, s1) :: ps, hp => by
      replace hp := List.pairwise_cons.mp hp
      by_cases h1 : k = k1
      · subst h1
        simp only [insertProp, if_pos rfl]
        exact List.pairwise_cons.mpr hp
      · by_cases h2 : k < k1
        · simp only [insertProp, if_neg h1, if_pos h2]
          refine List.pairwise_cons.mpr ⟨?_, List.pairwise_cons.mpr hp⟩
          intro kv hkv
          rcases List.mem_cons.mp hkv with h3 | h3
          · rw [h3]; exact h2
          · exact lt_trans h2 (hp.1 kv h3)
        · have h3 : k1 < k := by
            rcases lt_trichotomy k k1 with h4 | h4 | h4
            · exact absurd h4 h2
            · exact absurd h4 h1
            · exact h4
          simp only [insertProp, if_neg h1, if_neg h2]
          refine List.pairwise_cons.mpr ⟨?_, insertProp_sorted k s ps hp.2⟩
          intro kv hkv
          rcases mem_insertProp k s ps kv hkv with h4 | h4
          · rw [h4]; exact h3
          · exact hp.1 kv h4

theorem canonFold_ok :
    ∀ (ms : List (String × Schema)) (acc : List (String × Schema)),
      List.Pairwise (fun a b => a.1 < b.1) acc → (∀ kv ∈ acc, Canon kv.2) →
      (∀ kv ∈ ms, Canon kv.2) →
      List.Pairwise (fun a b => a.1 < b.1)
          (ms.foldl (fun acc kv => insertProp kv.1 kv.2 acc) acc)
        ∧ ∀ kv ∈ ms.foldl (fun acc kv => insertProp kv.1 kv.2 acc) acc, Canon kv.2
  | [], acc, hs, hc, _ => ⟨hs, hc⟩
  | (k, s) :: ms, acc, hs, hc, hm => by
      simp only [List.foldl_cons]
      refine canonFold_ok ms (insertProp k s acc) (insertProp_sorted k s acc hs) ?_ ?_
      · intro kv hkv
        rcases mem_insertProp k s acc kv hkv with h | h
        · rw [h]
          exact hm (k, s) (List.mem_cons_self _ _)
        · exact hc kv h
      · intro kv hkv
        exact hm kv (List.mem_cons_of_mem _ hkv)

theorem foldl_mergeS_canon :
    ∀ (ss : List Schema) (acc : Schema), Canon acc → (∀ x ∈ ss, Canon x) →
      Canon (ss.foldl mergeS acc)
  | [], acc, hacc, _ => hacc
  | s :: ss, acc, hacc, hss => by
      simp only [List.foldl_cons]
      exact foldl_mergeS_canon ss (mergeS acc s)
        (mergeS_canon hacc (hss s (List.mem_cons_self _ _)))
        (fun x hx => hss x (List.mem_cons_of_mem _ hx))

theorem canon_scalar (t : String) : Canon (.node [t] [] none) := by
  refine Canon.mk [t] [] none ?_ ?_ ?_ ?_
  · exact List.pairwise_singleton _ t
  · exact List.Pairwise.nil
  · intro kv hkv
    exact absurd hkv (List.not_mem_nil kv)
  · intro s hs
    exact Option.noConfusion hs

mutual
theorem schemaOf_canon : ∀ d : Json, Canon (schemaOf d)
  | .null => canon_scalar "null"
  | .bool _ => canon_scalar "boolean"
  | .num true _ => canon_scalar "integer"
  | .num false _ => canon_scalar "number"
  | .str _ => canon_scalar "string"
  | .obj ms => by
      have h := canonFold_ok (schemaMems ms) [] List.Pairwise.nil
        (fun kv hkv => absurd hkv (List.not_mem_nil kv)) (schemaMems_canon ms)
      simp only [schemaOf]
      refine Canon.mk _ _ _ (List.pairwise_singleton _ _) h.1 h.2 ?_
      intro s hs
      exact Option.noConfusion hs
  | .arr xs => by
      simp only [schemaOf]
      refine Canon.mk _ _ _ (List.pairwise_singleton _ _) List.Pairwise.nil
        (fun kv hkv => absurd hkv (List.not_mem_nil kv)) ?_
      intro s hs
      cases hxs : schemaList xs with
      | nil => rw [hxs] at hs; exact Option.noConfusion hs
      | cons s0 ss =>
          rw [hxs] at hs
          simp only [mergeList] at hs
          cases hs
          have hall := schemaList_canon xs
          rw [hxs] at hall
          exact foldl_mergeS_canon ss s0 (hall s0 (List.mem_cons_self _ _))
            (fun x hx => hall x (List.mem_cons_of_mem _ hx))

theorem schemaMems_canon : ∀ ms : List (String × Json), ∀ kv ∈ schemaMems ms, Canon kv.2
  | [] => by simp [schemaMems]
  | (k, v) :: ms => by
      intro kv hkv
      simp only [schemaMems, List.mem_cons] at hkv
      rcases hkv with h | h
      · rw [h]
        exact schemaOf_canon v
      · exact schemaMems_canon ms kv h

theorem schemaList_canon : ∀ xs : List Json, ∀ x ∈ schemaList xs, Canon x
  | [] => by simp [schemaList]
  | x :: xs => by
      intro y hy
      simp only [schemaList, List.mem_cons] at hy
      rcases hy with h | h
      · rw [h]
        exact schemaOf_canon x
      · exact schemaList_canon xs y h
end

theorem emptySchema_canon : Canon emptySchema := by
  refine Canon.mk [] [] none List.Pairwise.nil List.Pairwise.nil ?_ ?_
  · intro kv hkv
    exact absurd hkv (List.not_mem_nil kv)
  · intro s hs
    exact Option.noConfusion hs

theorem batch_foldl_perm {ds ds2 : List Json} (h : ds.Perm ds2) :
    ∀ acc : Schema, Canon acc →
      ds.foldl (fun a d => mergeS a (schemaOf d)) acc
        = ds2.foldl (fun a d => mergeS a (schemaOf d)) acc := by
  induction h with
  | nil => intro acc _; rfl
  | cons x h ih =>
      intro acc hacc
      simp only [List.foldl_cons]
      exact ih (mergeS acc (schemaOf x)) (mergeS_canon hacc (schemaOf_canon x))
  | swap x y l =>
      intro acc hacc
      simp only [List.foldl_cons]
      have hx := schemaOf_canon x
      have hy := schemaOf_canon y
      have key : mergeS (mergeS acc (schemaOf y)) (schemaOf x)
          = mergeS (mergeS acc (schemaOf x)) (schemaOf y) := by
        rw [mergeS_assoc hacc hy hx, mergeS_comm hy hx, ← mergeS_assoc hacc hx hy]
      rw [key]
  | trans h1 h2 ih1 ih2 =>
      intro acc hacc
      rw [ih1 acc hacc, ih2 acc hacc]

/-- Claim C7: batch schema merging is commutative and associative over the
batch input list: the binary merge of generated schemas commutes and
associates, any permutation of the batch yields the same merged schema, and
the merged schema's properties are the key-union of the two documents'
properties with each shared property's schema being the merge of its
per-document schemas (`mergeItems` acts as the option-level combiner). -/
theorem schema_merge_algebra_C7 (d1 d2 d3 : Json) (ds ds2 : List Json)
    (hperm : ds.Perm ds2) :
    mergeS (schemaOf d1) (schemaOf d2) = mergeS (schemaOf d2) (schemaOf d1)
    ∧ mergeS (mergeS (schemaOf d1) (schemaOf d2)) (schemaOf d3)
        = mergeS (schemaOf d1) (mergeS (schemaOf d2) (schemaOf d3))
    ∧ batchSchema ds = batchSchema ds2
    ∧ ∀ k, ((mergeS (schemaOf d1) (schemaOf d2)).propsOf.lookup k
        = mergeItems ((schemaOf d1).propsOf.lookup k) ((schemaOf d2).propsOf.lookup k)) := by
  have h1 := schemaOf_canon d1
  have h2 := schemaOf_canon d2
  have h3 := schemaOf_canon d3
  refine ⟨mergeS_comm h1 h2, mergeS_assoc h1 h2 h3,
    batch_foldl_perm hperm emptySchema emptySchema_canon, ?_⟩
  intro k
  cases hs1 : schemaOf d1 with
  | node ts1 ps1 i1 =>
  cases hs2 : schemaOf d2 with
  | node ts2 ps2 i2 =>
  have hp1 : List.Pairwise (fun a b => a.1 < b.1) ps1 := by
    have := canon_props_sorted h1
    rw [hs1] at this
    exact this
  have hp2 : List.Pairwise (fun a b => a.1 < b.1) ps2 := by
    have := canon_props_sorted h2
    rw [hs2] at this
    exact this
  rw [mergeS]
  exact lookup_mergeProps ps1 ps2 hp1 hp2 k

/-- Witness for C7: three concrete documents and a two-element batch with
its transposition. -/
theorem schema_merge_algebra_C7_witness :
    (mergeS (schemaOf (.obj [("a", .num true "1")])) (schemaOf (.obj [("b", .bool true)]))
        = mergeS (schemaOf (.obj [("b", .bool true)])) (schemaOf (.obj [("a", .num true "1")])))
    ∧ (mergeS (mergeS (schemaOf (.obj [("a", .num true "1")]))
          (schemaOf (.obj [("b", .bool true)]))) (schemaOf (.obj [("a", .str "x")]))
        = mergeS (schemaOf (.obj [("a", .num true "1")]))
            (mergeS (schemaOf (.obj [("b", .bool true)])) (schemaOf (.obj [("a", .str "x")]))))
    ∧ batchSchema [.null, .bool true] = batchSchema [.bool true, .null]
    ∧ ∀ k, ((mergeS (schemaOf (.obj [("a", .num true "1")]))
          (schemaOf (.obj [("b", .bool true)]))).propsOf.lookup k
        = mergeItems ((schemaOf (.obj [("a", .num true "1")])).propsOf.lookup k)
            ((schemaOf (.obj [("b", .bool true)])).propsOf.lookup k)) :=
  schema_merge_algebra_C7 (.obj [("a", .num true "1")]) (.obj [("b", .bool true)])
    (.obj [("a", .str "x")]) [.null, .bool true] [.bool true, .null]
    (List.Perm.swap (Json.bool true) Json.null [])
